import Mathlib

/-!
uploader: mirroring a local tree onto an FTP server

A shallow embedding of `main.go`.  The program is one function, `main`, that
loops over the configured projects; for each project it dials the server,
logs in, lists the remote root, deletes every listed entry, walks the local
tree creating directories and storing files, and quits.

The embedding keeps the control flow of the source and makes its environment
explicit:

* the FTP client (`github.com/jlaffaye/ftp`) is a record `Client σ` of state
  transformers over an arbitrary world state `σ`; every call is recorded in a
  trace together with its outcome;
* the local file system is a tree (`Node`), read through models of
  `filepath.Walk` and `os.Open`;
* Go strings are lists of characters, Go `error` values are `Option Error`
  (`none` is `nil`).
-/

set_option autoImplicit false

namespace Uploader

variable {σ : Type}

/-! ## Strings -/

/-- A Go string, as its sequence of characters. -/
abbrev Str := List Char

/-- The text of a Go `error` value. -/
abbrev Error := String

/-- The content of a file. -/
abbrev Bytes := List Nat

/-- The path separator `filepath.Separator` on Unix. -/
def sep : Char := '/'

/-- Model of `strings.TrimPrefix`: `s` without the leading `pre`, or `s` itself
when `s` does not start with `pre`. -/
def trimPrefix (s pre : Str) : Str :=
  if pre.isPrefixOf s then s.drop pre.length else s

/-! ## `filepath.Clean` and `filepath.Join` (Unix)

Go's `Clean` scans the path once.  Every iteration of its loop starts at a
separator or at the first byte of a path element and consumes a separator, a
`.` element, a `..` element or an ordinary element whole, so the loop is a
fold over the elements between the separators; `rooted`, the output buffer and
the index `dotdot` are the state of the source. -/

/-- The elements of a path: the maximal runs between separators (possibly
empty). -/
def splitElems : Str → List Str
  | [] => [[]]
  | c :: cs =>
    if c = sep then [] :: splitElems cs
    else
      match splitElems cs with
      | [] => [[c]]
      | e :: es => (c :: e) :: es

/-- The `..` case of `Clean` when it can backtrack: `out.w--`, then
`for out.w > dotdot && !IsPathSeparator(out.index(out.w)) { out.w-- }`.
The argument is the value of `out.w` after the first decrement. -/
def backtrack (out : Str) (dotdot : Nat) : Nat → Nat
  | 0 => 0
  | w + 1 => if dotdot < w + 1 ∧ out.getD (w + 1) sep ≠ sep then backtrack out dotdot w else w + 1

/-- One iteration of the loop of `Clean` on the element `e`; the state is the
output buffer and `dotdot`. -/
def cleanStep (rooted : Bool) (st : Str × Nat) (e : Str) : Str × Nat :=
  let out := st.1
  let dotdot := st.2
  if e = [] then st                                   -- empty path element
  else if e = ['.'] then st                            -- . element
  else if e = ['.', '.'] then                          -- .. element
    if dotdot < out.length then
      (out.take (backtrack out dotdot (out.length - 1)), dotdot)
    else if !rooted then
      let out1 := if 0 < out.length then out ++ [sep] else out
      (out1 ++ ['.', '.'], (out1 ++ ['.', '.']).length)
    else st
  else                                                 -- real path element
    let out1 := if (rooted && out.length != 1) || (!rooted && out.length != 0)
                then out ++ [sep] else out
    (out1 ++ e, dotdot)

/-- Model of `filepath.Clean` on Unix. -/
def clean (path : Str) : Str :=
  if path = [] then ['.']
  else
    let rooted := path.head? == some sep
    let init : Str × Nat := if rooted then ([sep], 1) else ([], 0)
    let out := ((splitElems path).foldl (cleanStep rooted) init).1
    if out = [] then ['.'] else out

/-- Model of `filepath.Join` for the two elements `filepath.Walk` passes: the
non-empty elements joined by the separator, cleaned. -/
def join (dir name : Str) : Str :=
  if dir ≠ [] then clean (dir ++ sep :: name)
  else if name ≠ [] then clean name
  else []

/-! ## Configuration -/

/-- The `FTPConfig` of the source. -/
structure FTPConfig where
  Host : Str
  Username : Str
  Password : Str
  Port : Int
  deriving DecidableEq, Repr

/-- The `Project` of the source. -/
structure Project where
  Name : Str
  LocalPath : Str
  RemotePath : Str
  Connection : FTPConfig
  deriving DecidableEq, Repr

/-- The `Config` of the source. -/
structure Config where
  Projects : List Project
  deriving DecidableEq, Repr

/-! ## The FTP client -/

/-- The `ftp.EntryType` of the client library. -/
inductive EntryType
  | file
  | folder
  | link
  deriving DecidableEq, Repr

/-- The fields of `ftp.Entry` the program reads: `Name`, and `Type` (written
`type` here). -/
structure Entry where
  Name : Str
  type : EntryType
  deriving DecidableEq, Repr

/-- The calls the program makes on the client library, as transformers of a
world state `σ`: each returns the Go `error` (`none` for `nil`) and the next
state.  `dial` takes the address and the timeout in seconds; the other calls
act on the connection of the current iteration. -/
structure Client (σ : Type) where
  dial : Str → Nat → σ → Option Error × σ
  login : Str → Str → σ → Option Error × σ
  list : Str → σ → (List Entry × Option Error) × σ
  delete : Str → σ → Option Error × σ
  removeDirRecur : Str → σ → Option Error × σ
  makeDir : Str → σ → Option Error × σ
  stor : Str → Bytes → σ → Option Error × σ
  quit : σ → Option Error × σ

/-- A remote operation, as requested by the program. -/
inductive Op
  | dial (addr : Str) (timeout : Nat)
  | login (user password : Str)
  | list (path : Str)
  | delete (path : Str)
  | removeDirRecur (path : Str)
  | makeDir (path : Str)
  | stor (path : Str) (content : Bytes)
  | quit
  deriving DecidableEq, Repr

/-- What the program does that is visible from outside: a call on the client
with the error it returned, or a line written with `logger.Error` (the message
and the error text; the other attributes, and the `Debug` and `Info` lines,
are not recorded). -/
inductive Event
  | call (op : Op) (err : Option Error)
  | logError (msg : String) (err : Error)
  deriving DecidableEq, Repr

/-- The state of a run: the world, and the events so far, oldest first. -/
structure Run (σ : Type) where
  world : σ
  trace : List Event

/-- The start of a run in the world `w`: nothing has happened yet. -/
def Run.start (w : σ) : Run σ := { world := w, trace := [] }

/-- Record a call on the client and move to the state it returned. -/
def Run.call (st : Run σ) (op : Op) (r : Option Error × σ) : Option Error × Run σ :=
  (r.1, { world := r.2, trace := st.trace ++ [Event.call op r.1] })

/-- Record a `logger.Error` line. -/
def Run.log (st : Run σ) (msg : String) (err : Error) : Run σ :=
  { st with trace := st.trace ++ [Event.logError msg err] }

/-! ## The local file system -/

mutual
/-- What `os.Lstat`, the reading of a directory and `os.Open` find at a local
path: a regular file with its content, a file that cannot be opened, a
directory with its entries in the order `readDirNames` returns them, a
directory that cannot be read, or a path on which `Lstat` fails. -/
inductive Node
  | file (content : Bytes)
  | noOpen (err : Error)
  | dir (entries : Forest)
  | noRead (err : Error)
  | noStat (err : Error)
/-- The entries of a directory: names with what is found under each. -/
inductive Forest
  | nil
  | cons (name : Str) (node : Node) (rest : Forest)
end

/-- The `info.IsDir()` of the `fs.FileInfo` that `Lstat` returns. -/
def Node.isDir : Node → Bool
  | Node.dir _ => true
  | Node.noRead _ => true
  | _ => false

/-- Model of `os.Open` followed by reading the whole file. -/
def Node.open : Node → Except Error Bytes
  | Node.file c => Except.ok c
  | Node.noOpen e => Except.error e
  | Node.dir _ => Except.ok []
  | Node.noRead e => Except.error e
  | Node.noStat e => Except.error e

/-- The type of a `filepath.WalkFunc` over a state `τ`: the path, what is at
the path (standing for `info`), the error of the walk, and the result. -/
abbrev WalkFunc (τ : Type) := Str → Node → Option Error → τ → Option Error × τ

mutual
/-- Model of the unexported `walk` of `path/filepath`: call `walkFn` on the
path; for a directory, read its names first, hand a read error to `walkFn` and
return what it returns, otherwise walk every name in order and stop at the
first error.  The error values of this program are never the sentinels
`SkipDir` and `SkipAll`, whose branches are left out. -/
def walk {τ : Type} (walkFn : WalkFunc τ) (path : Str) (info : Node) (st : τ) :
    Option Error × τ :=
  match info with
  | Node.dir entries =>
    match walkFn path info none st with
    | (some err1, st1) => (some err1, st1)
    | (none, st1) => walkNames walkFn path entries st1
  | Node.noRead err => walkFn path info (some err) st
  | _ => walkFn path info none st
/-- The loop of `walk` over the names of a directory: `Lstat` each joined name,
hand an `Lstat` error to `walkFn`, otherwise `walk` it. -/
def walkNames {τ : Type} (walkFn : WalkFunc τ) (path : Str) (names : Forest) (st : τ) :
    Option Error × τ :=
  match names with
  | Forest.nil => (none, st)
  | Forest.cons name node rest =>
    let filename := join path name
    match node with
    | Node.noStat err =>
      match walkFn filename node (some err) st with
      | (some e, st1) => (some e, st1)
      | (none, st1) => walkNames walkFn path rest st1
    | _ =>
      match walk walkFn filename node st with
      | (some e, st1) => (some e, st1)
      | (none, st1) => walkNames walkFn path rest st1
end

/-- Model of `filepath.Walk`: `Lstat` the root; on failure call `fn` once with
the error, otherwise `walk`. -/
def Walk {τ : Type} (root : Str) (info : Node) (fn : WalkFunc τ) (st : τ) :
    Option Error × τ :=
  match info with
  | Node.noStat err => fn root info (some err) st
  | _ => walk fn root info st

/-! ## The program -/

/-- The address `fmt.Sprintf("%s:%d", host, port)`. -/
def dialAddr (p : Project) : Str :=
  p.Connection.Host ++ ':' :: (toString p.Connection.Port).toList

/-- The function literal passed to `filepath.Walk` (lines 89-115). -/
def walkFn (W : Client σ) (p : Project) : WalkFunc (Run σ) :=
  fun path info err st =>
    match err with
    | some e => (some e, st)
    | none =>
      if path = p.LocalPath then (none, st)
      else
        let remotePath := p.RemotePath ++ trimPrefix path p.LocalPath
        if info.isDir then
          match st.call (Op.makeDir remotePath) (W.makeDir remotePath st.world) with
          | (some e, st1) => (some e, st1.log "can not create remote dir" e)
          | (none, st1) => (none, st1)
        else
          match info.open with
          | Except.error e => (some e, st.log "can not read local file" e)
          | Except.ok file =>
            match st.call (Op.stor remotePath file) (W.stor remotePath file st.world) with
            | (some e, st1) => (some e, st1.log "can not store remote file" e)
            | (none, st1) => (none, st1)

/-- Lines 88-120 of an iteration: walk the local tree, log a walk error, quit,
log a quit error. -/
def upload (W : Client σ) (fs : Str → Node) (p : Project) (st : Run σ) : Run σ :=
  let st2 :=
    match Walk p.LocalPath (fs p.LocalPath) (walkFn W p) st with
    | (some e, st1) => st1.log "error walking" e
    | (none, st1) => st1
  match st2.call Op.quit (W.quit st2.world) with
  | (some e, st3) => st3.log "error walking" e
  | (none, st3) => st3

/-- The loop over the listing (lines 73-87).  The result is `some err` when the
loop was left by `continue projectsLoop`, and `none` when it ran to its end. -/
def wipe (W : Client σ) (p : Project) : List Entry → Run σ → Option Error × Run σ
  | [], st => (none, st)
  | entry :: rest, st =>
    let remotePath := p.RemotePath ++ '/' :: entry.Name
    if entry.type = EntryType.file then
      match st.call (Op.delete remotePath) (W.delete remotePath st.world) with
      | (some e, st1) => (some e, st1.log "can not delete remote entry" e)
      | (none, st1) => wipe W p rest st1
    else
      match st.call (Op.removeDirRecur remotePath) (W.removeDirRecur remotePath st.world) with
      | (some e, st1) => (some e, st1.log "can not delete remote entry" e)
      | (none, st1) => wipe W p rest st1

/-- One iteration of `projectsLoop` (lines 56-120). -/
def mirrorProject (W : Client σ) (fs : Str → Node) (p : Project) (st : Run σ) : Run σ :=
  match st.call (Op.dial (dialAddr p) 5) (W.dial (dialAddr p) 5 st.world) with
  | (some e, st1) => st1.log "dial error" e
  | (none, st1) =>
    match st1.call (Op.login p.Connection.Username p.Connection.Password)
        (W.login p.Connection.Username p.Connection.Password st1.world) with
    | (some e, st2) => st2.log "connection error" e
    | (none, st2) =>
      let r := W.list p.RemotePath st2.world
      let st3 : Run σ :=
        { world := r.2, trace := st2.trace ++ [Event.call (Op.list p.RemotePath) r.1.2] }
      match r.1.2 with
      | some e => st3.log "can not get list of remote entries in root" e
      | none =>
        match wipe W p r.1.1 st3 with
        | (some _, st4) => st4
        | (none, st4) => upload W fs p st4

/-- The loop `projectsLoop` of `main` (lines 54-121) over the projects of the
configuration; `fs` is the local file system, which gives what is found at a
project's `LocalPath`. -/
def main (W : Client σ) (fs : Str → Node) (config : Config) (st : Run σ) : Run σ :=
  config.Projects.foldl (fun st p => mirrorProject W fs p st) st

/-! ## A model of the FTP server

The client library and the server are outside the repository.  For the
properties that speak of the remote state, the world is one server holding a
tree of files, kept as a list of bindings from paths (lists of names, the
remote root directory being `[]`) to what is stored there; a later binding for
the same path is hidden by an earlier one. -/

/-- A remote path: the names from the top directory down. -/
abbrev RPath := List Str

/-- What the server stores at a path. -/
inductive RNode
  | file (content : Bytes)
  | dir
  deriving DecidableEq, Repr

/-- The server: the address it listens on, the account it accepts, whether it
answers `QUIT`, and its files. -/
structure Server where
  addr : Str
  user : Str
  password : Str
  graceful : Bool
  files : List (RPath × RNode)
  deriving DecidableEq, Repr

/-- The names of a path string: its non-empty elements. -/
def parsePath (path : Str) : RPath :=
  (splitElems path).filter (fun e => e ≠ [])

/-- What is stored at a path, if anything. -/
def lookup : List (RPath × RNode) → RPath → Option RNode
  | [], _ => none
  | (k, v) :: rest, q => if k = q then some v else lookup rest q

/-- Whether a path is a directory; the top directory always is. -/
def isDirAt (files : List (RPath × RNode)) (q : RPath) : Bool :=
  q = [] || lookup files q = some RNode.dir

/-- The name of `k` below the directory `d`, when `k` is directly below `d`. -/
def childName (d : RPath) (k : RPath) : Option Str :=
  if k ≠ [] ∧ k.dropLast = d then k.getLast? else none

/-- The entry listed for the name `n` of the directory `d`. -/
def entryAt (files : List (RPath × RNode)) (d : RPath) (n : Str) : Entry :=
  { Name := n
    type := match lookup files (d ++ [n]) with
            | some (RNode.file _) => EntryType.file
            | _ => EntryType.folder }

/-- The listing of a directory: the names directly below it, each once, with
the type of what is stored there. -/
def listing (files : List (RPath × RNode)) (d : RPath) : List Entry :=
  ((files.filterMap (fun b => childName d b.1)).dedup).map (entryAt files d)

/-- The server as a `Client`: a call fails exactly when the server would refuse
it, and a failed call changes nothing. -/
def ftpServer : Client Server where
  dial := fun addr _ s =>
    if addr = s.addr then (none, s) else (some "dial tcp: connection refused", s)
  login := fun user password s =>
    if user = s.user ∧ password = s.password then (none, s)
    else (some "530 Login incorrect", s)
  list := fun path s =>
    if isDirAt s.files (parsePath path) then ((listing s.files (parsePath path), none), s)
    else (([], some "550 No such directory"), s)
  delete := fun path s =>
    match lookup s.files (parsePath path) with
    | some (RNode.file _) =>
      (none, { s with files := s.files.filter (fun b => b.1 ≠ parsePath path) })
    | _ => (some "550 Delete operation failed", s)
  removeDirRecur := fun path s =>
    match lookup s.files (parsePath path) with
    | some RNode.dir =>
      (none, { s with files := s.files.filter (fun b => ¬ parsePath path <+: b.1) })
    | _ => (some "550 Failed to change directory", s)
  makeDir := fun path s =>
    if parsePath path ≠ [] ∧ lookup s.files (parsePath path) = none
        ∧ isDirAt s.files (parsePath path).dropLast then
      (none, { s with files := (parsePath path, RNode.dir) :: s.files })
    else (some "550 Create directory operation failed", s)
  stor := fun path content s =>
    if parsePath path ≠ [] ∧ lookup s.files (parsePath path) ≠ some RNode.dir
        ∧ isDirAt s.files (parsePath path).dropLast then
      (none, { s with files := (parsePath path, RNode.file content) :: s.files })
    else (some "553 Could not create file", s)
  quit := fun s =>
    if s.graceful then (none, s) else (some "EOF", s)

/-- A client that refuses the operations selected by `bad` with the error
`refused`, leaving the world as it is, and otherwise behaves as `W`. -/
def withFaults (bad : Op → Bool) (W : Client σ) : Client σ where
  dial := fun addr t w => if bad (Op.dial addr t) then (some "refused", w) else W.dial addr t w
  login := fun u pw w => if bad (Op.login u pw) then (some "refused", w) else W.login u pw w
  list := fun path w => if bad (Op.list path) then (([], some "refused"), w) else W.list path w
  delete := fun path w => if bad (Op.delete path) then (some "refused", w) else W.delete path w
  removeDirRecur := fun path w =>
    if bad (Op.removeDirRecur path) then (some "refused", w) else W.removeDirRecur path w
  makeDir := fun path w => if bad (Op.makeDir path) then (some "refused", w) else W.makeDir path w
  stor := fun path c w => if bad (Op.stor path c) then (some "refused", w) else W.stor path c w
  quit := fun w => if bad Op.quit then (some "refused", w) else W.quit w

/-! ## Traces and outcomes -/

/-- The remote operations of a trace, in order. -/
def remoteOps : List Event → List Op
  | [] => []
  | Event.call op _ :: es => op :: remoteOps es
  | Event.logError _ _ :: es => remoteOps es

/-- The `logger.Error` lines of a trace, in order. -/
def errorLines : List Event → List (String × Error)
  | [] => []
  | Event.call _ _ :: es => errorLines es
  | Event.logError m e :: es => (m, e) :: errorLines es

/-- A run with the events `tr` put before its own. -/
def Run.after (r : Run σ) (tr : List Event) : Run σ :=
  { world := r.world, trace := tr ++ r.trace }

/-- A step does not read the trace: run from any state, it gives the result of
the run from the fresh state of the same world, after the events so far. -/
def Framed (f : Run σ → Option Error × Run σ) : Prop :=
  ∀ st, f st = ((f (Run.start st.world)).1, (f (Run.start st.world)).2.after st.trace)

/-- Whether an operation is a connect. -/
def Op.isDial : Op → Bool
  | Op.dial _ _ => true
  | _ => false

/-- Whether an operation is a create-directory or a store. -/
def Op.isUpload : Op → Bool
  | Op.makeDir _ => true
  | Op.stor _ _ => true
  | _ => false

/-- The connects of a trace, in order. -/
def dials (tr : List Event) : List Op :=
  (remoteOps tr).filter Op.isDial

/-- Whether the steps of a project before the quit succeeded, read off its
events: every event before the quit is a call that returned no error, and the
quit is reached.  (Every failure before the quit leaves a failed call or an
error line; the outcome of the quit itself does not count.) -/
def stepsSucceeded : List Event → Bool
  | [] => false
  | Event.call Op.quit _ :: _ => true
  | Event.call _ none :: rest => stepsSucceeded rest
  | Event.call _ (some _) :: _ => false
  | Event.logError _ _ :: _ => false

/-- The projects processed one after the other, each on its own: the events of
each project are those of its iteration from a fresh start in the world the
earlier projects left; the result is all the events and the final world. -/
def runEach (W : Client σ) (fs : Str → Node) : List Project → σ → List Event × σ
  | [], w => ([], w)
  | p :: ps, w =>
    ((mirrorProject W fs p (Run.start w)).trace
        ++ (runEach W fs ps (mirrorProject W fs p (Run.start w)).world).1,
      (runEach W fs ps (mirrorProject W fs p (Run.start w)).world).2)

/-! ## The delete operations of the wipe -/

/-- The delete operation for a listed entry, in the words of the specification:
a direct delete of a file, a recursive delete of a directory (and of anything
else), on the remote root followed by `/` and the name. -/
def deleteOp (p : Project) (e : Entry) : Op :=
  match e.type with
  | EntryType.file => Op.delete (p.RemotePath ++ '/' :: e.Name)
  | EntryType.folder => Op.removeDirRecur (p.RemotePath ++ '/' :: e.Name)
  | EntryType.link => Op.removeDirRecur (p.RemotePath ++ '/' :: e.Name)

/-- What the client answers to the delete operation for a listed entry. -/
def deleteCall (W : Client σ) (p : Project) (e : Entry) (w : σ) : Option Error × σ :=
  match e.type with
  | EntryType.file => W.delete (p.RemotePath ++ '/' :: e.Name) w
  | EntryType.folder => W.removeDirRecur (p.RemotePath ++ '/' :: e.Name) w
  | EntryType.link => W.removeDirRecur (p.RemotePath ++ '/' :: e.Name) w

/-- The event of a delete operation for a listed entry. -/
def deleteEvent (p : Project) (err : Option Error) (e : Entry) : Event :=
  Event.call (deleteOp p e) err

/-- The world after the delete operations for the entries of a list, one after
the other, when every one of them succeeds; `none` when one fails. -/
def deletionsSucceed (W : Client σ) (p : Project) : List Entry → σ → Option σ
  | [], w => some w
  | e :: es, w =>
    match deleteCall W p e w with
    | (none, w1) => deletionsSucceed W p es w1
    | (some _, _) => none

/-! ## The calls of the walk function -/

/-- One call of the walk function: the path, what is there, and the error the
walk hands over. -/
structure Visit where
  path : Str
  info : Node
  err : Option Error

mutual
/-- The calls of the walk function for what is at `path`, in order, when no
call returns an error: the path itself, then the entries of a directory that
can be read. -/
def walkVisits (path : Str) : Node → List Visit
  | Node.dir entries => ⟨path, Node.dir entries, none⟩ :: namesVisits path entries
  | Node.noRead err => [⟨path, Node.noRead err, some err⟩]
  | Node.file c => [⟨path, Node.file c, none⟩]
  | Node.noOpen err => [⟨path, Node.noOpen err, none⟩]
  | Node.noStat err => [⟨path, Node.noStat err, none⟩]
/-- The calls of the walk function for the entries of the directory `path`. -/
def namesVisits (path : Str) : Forest → List Visit
  | Forest.nil => []
  | Forest.cons name node rest =>
    (match node with
      | Node.noStat err => [⟨join path name, Node.noStat err, some err⟩]
      | Node.dir entries => walkVisits (join path name) (Node.dir entries)
      | Node.noRead err => walkVisits (join path name) (Node.noRead err)
      | Node.file c => walkVisits (join path name) (Node.file c)
      | Node.noOpen err => walkVisits (join path name) (Node.noOpen err))
      ++ namesVisits path rest
end

/-- The calls of the walk function in a walk from `root`. -/
def rootVisits (root : Str) (info : Node) : List Visit :=
  match info with
  | Node.noStat err => [⟨root, info, some err⟩]
  | _ => walkVisits root info

/-- Make the calls of a list in order, up to the first that returns an error. -/
def runVisits {τ : Type} (fn : WalkFunc τ) : List Visit → τ → Option Error × τ
  | [], st => (none, st)
  | v :: vs, st =>
    match fn v.path v.info v.err st with
    | (some e, st1) => (some e, st1)
    | (none, st1) => runVisits fn vs st1

/-- The remote path the walk function computes for a local path. -/
def remotePathOf (p : Project) (path : Str) : Str :=
  p.RemotePath ++ trimPrefix path p.LocalPath

/-- The operation a call of the walk function issues: none for the root, a
create-directory for a directory, a store for a file that can be opened; on the
remote path of the entry. -/
def opOf (p : Project) (v : Visit) : List Op :=
  match v.err with
  | some _ => []
  | none =>
    if v.path = p.LocalPath then []
    else if v.info.isDir then [Op.makeDir (remotePathOf p v.path)]
    else
      match v.info.open with
      | Except.ok c => [Op.stor (remotePathOf p v.path) c]
      | Except.error _ => []

/-- The operations the calls of a list issue when none returns an error. -/
def opsOf (p : Project) : List Visit → List Op
  | [] => []
  | v :: vs => opOf p v ++ opsOf p vs

/-- The world after the entries of a list are replicated, one after the other,
when every step succeeds: no walk error, every create-directory accepted,
every file opened and stored; `none` when a step fails.  The root itself is
passed over. -/
def replicated (W : Client σ) (p : Project) : List Visit → σ → Option σ
  | [], w => some w
  | v :: vs, w =>
    match v.err with
    | some _ => none
    | none =>
      if v.path = p.LocalPath then replicated W p vs w
      else if v.info.isDir then
        match W.makeDir (remotePathOf p v.path) w with
        | (none, w1) => replicated W p vs w1
        | (some _, _) => none
      else
        match v.info.open with
        | Except.error _ => none
        | Except.ok c =>
          match W.stor (remotePathOf p v.path) c w with
          | (none, w1) => replicated W p vs w1
          | (some _, _) => none

/-- The entry of the call `v` fails in the world `w` with the error `e`: the
walk hands over an error, or the create-directory for a directory fails, or the
file cannot be opened, or the store of its content fails. -/
inductive StepFails (W : Client σ) (p : Project) (v : Visit) (w : σ) (e : Error) : Prop
  | walkError : v.err = some e → StepFails W p v w e
  | makeDir : v.err = none → v.path ≠ p.LocalPath → v.info.isDir = true →
      (W.makeDir (remotePathOf p v.path) w).1 = some e → StepFails W p v w e
  | openFile : v.err = none → v.path ≠ p.LocalPath → v.info.isDir = false →
      v.info.open = Except.error e → StepFails W p v w e
  | stor (c : Bytes) : v.err = none → v.path ≠ p.LocalPath → v.info.isDir = false →
      v.info.open = Except.ok c → (W.stor (remotePathOf p v.path) c w).1 = some e →
      StepFails W p v w e

/-- What a successful call of the walk function writes on the server: nothing
for the root, a directory for a directory, a file with the content read for a
file; at the path parsed from the remote path. -/
def writeOf (p : Project) (v : Visit) : List (RPath × RNode) :=
  match v.err with
  | some _ => []
  | none =>
    if v.path = p.LocalPath then []
    else if v.info.isDir then [(parsePath (remotePathOf p v.path), RNode.dir)]
    else
      match v.info.open with
      | Except.ok c => [(parsePath (remotePathOf p v.path), RNode.file c)]
      | Except.error _ => []

/-- What successful calls of the walk function write, the latest first. -/
def writesOf (p : Project) : List Visit → List (RPath × RNode)
  | [] => []
  | v :: vs => writesOf p vs ++ writeOf p v

/-! ## Parent before child -/

/-- The parent of a remote path: the path up to its last separator. -/
def parentPath (q : Str) : Str :=
  ((q.reverse.dropWhile (fun c => c ≠ sep)).drop 1).reverse

/-- Parent before child, checked along a sequence of operations: every
create-directory and every store targets a path whose parent is the remote root
or a path for which a create-directory was issued earlier (`made`). -/
def parentBeforeChild (remoteRoot : Str) : List Op → List Str → Bool
  | [], _ => true
  | Op.makeDir q :: rest, made =>
    (decide (parentPath q = remoteRoot) || decide (parentPath q ∈ made))
      && parentBeforeChild remoteRoot rest (q :: made)
  | Op.stor q _ :: rest, made =>
    (decide (parentPath q = remoteRoot) || decide (parentPath q ∈ made))
      && parentBeforeChild remoteRoot rest made
  | _ :: rest, made => parentBeforeChild remoteRoot rest made

/-- The directories created by a sequence of operations, the latest first, on
top of `made`. -/
def madeAfter : List Op → List Str → List Str
  | [], made => made
  | Op.makeDir q :: rest, made => madeAfter rest (q :: made)
  | _ :: rest, made => madeAfter rest made

/-! ## Well-formed remote states -/

/-- A name of a directory entry: not empty, without a separator. -/
def ValidName (n : Str) : Prop := n ≠ [] ∧ sep ∉ n

instance (n : Str) : Decidable (ValidName n) := by
  unfold ValidName; infer_instance

/-- The files of a server form a tree of named entries: every bound path is
not the top, its names are valid, and its parent is a directory. -/
def WellFormed (files : List (RPath × RNode)) : Prop :=
  ∀ b ∈ files, b.1 ≠ [] ∧ (∀ n ∈ b.1, ValidName n) ∧ isDirAt files b.1.dropLast = true

instance (files : List (RPath × RNode)) : Decidable (WellFormed files) := by
  unfold WellFormed; infer_instance

/-- The path `q` is below the directory `d`, and is not `d` itself. -/
def Below (d q : RPath) : Prop := d <+: q ∧ q ≠ d

instance (d q : RPath) : Decidable (Below d q) := by
  unfold Below; infer_instance

/-- Whether the delete operation for the listed entry `e` of the directory `r`
removes what is bound at `k`: the path of the entry for a file, the path of the
entry and everything below it otherwise. -/
def removes (r : RPath) (e : Entry) (k : RPath) : Bool :=
  if e.type = EntryType.file then decide (k = r ++ [e.Name]) else decide (r ++ [e.Name] <+: k)

/-- The files left by the delete operations for the entries `es` of `r`. -/
def wiped (files : List (RPath × RNode)) (r : RPath) (es : List Entry) : List (RPath × RNode) :=
  files.filter (fun b => es.all (fun e => !removes r e b.1))

/-- The listed entry `e` of `r` is bound in `files` with its type. -/
def Listed (files : List (RPath × RNode)) (r : RPath) (e : Entry) : Prop :=
  ValidName e.Name ∧
    ((e.type = EntryType.file ∧ ∃ c, lookup files (r ++ [e.Name]) = some (RNode.file c)) ∨
     (e.type ≠ EntryType.file ∧ lookup files (r ++ [e.Name]) = some RNode.dir))

/-- The server after the wipe of the remote root of `p`. -/
def wipedServer (s : Server) (p : Project) : Server :=
  { s with
    files := wiped s.files (parsePath p.RemotePath) (listing s.files (parsePath p.RemotePath)) }

/-- Two states of the server are the same remote state: the same server, with
the same thing stored at every path. -/
def SameState (a b : Server) : Prop :=
  a.addr = b.addr ∧ a.user = b.user ∧ a.password = b.password ∧ a.graceful = b.graceful ∧
    ∀ q, lookup a.files q = lookup b.files q

/-! ## The local tree as a set of entries -/

/-- What a mirror stores for a local entry: a directory for a directory, a file
with the content for a file. -/
def Node.mirrored : Node → RNode
  | Node.file c => RNode.file c
  | Node.noOpen _ => RNode.file []
  | Node.dir _ => RNode.dir
  | Node.noRead _ => RNode.dir
  | Node.noStat _ => RNode.file []

mutual
/-- The entries below a local node, as paths relative to the root (the node
itself, at `rel`, left out), with what a mirror stores for each. -/
def localEntries (rel : RPath) : Node → List (RPath × RNode)
  | Node.dir entries => forestEntries rel entries
  | Node.file _ => []
  | Node.noOpen _ => []
  | Node.noRead _ => []
  | Node.noStat _ => []
/-- The entries of a local directory at `rel`, and below them. -/
def forestEntries (rel : RPath) : Forest → List (RPath × RNode)
  | Forest.nil => []
  | Forest.cons name node rest =>
    (rel ++ [name], node.mirrored) :: (localEntries (rel ++ [name]) node ++ forestEntries rel rest)
end

/-- Structural fidelity: below the remote root `r`, the server stores exactly
the entries of the local tree, at the same relative paths, with the same kind
and the same content. -/
def Mirrors (files : List (RPath × RNode)) (r : RPath) (tree : Node) : Prop :=
  ∀ rel : RPath, rel ≠ [] → lookup files (r ++ rel) = lookup (localEntries [] tree) rel

/-- The string of a relative path: every name after a separator. -/
def relString : RPath → Str
  | [] => []
  | n :: ns => sep :: n ++ relString ns

/-- A binding of the local tree, put below the remote root `r`. -/
def underRoot (r : RPath) (b : RPath × RNode) : RPath × RNode := (r ++ b.1, b.2)

/-- The operation that replicates an entry of the local tree: on the remote
root followed by the relative path, every name after a separator. -/
def entryOp (p : Project) (b : RPath × RNode) : Op :=
  match b.2 with
  | RNode.dir => Op.makeDir (p.RemotePath ++ relString b.1)
  | RNode.file c => Op.stor (p.RemotePath ++ relString b.1) c

/-- The names of the entries of a directory. -/
def Forest.names : Forest → List Str
  | Forest.nil => []
  | Forest.cons name _ rest => name :: rest.names

/-- A name of a directory entry on the local file system: valid, and neither
`.` nor `..`. -/
def PlainName (n : Str) : Prop := ValidName n ∧ n ≠ ['.'] ∧ n ≠ ['.', '.']

instance (n : Str) : Decidable (PlainName n) := by
  unfold PlainName; infer_instance

mutual
/-- A local tree that can be read throughout, with plain names, distinct in
every directory. -/
def Node.Plain : Node → Prop
  | Node.dir entries => entries.Plain
  | Node.file _ => True
  | Node.noOpen _ => False
  | Node.noRead _ => False
  | Node.noStat _ => False
/-- The entries of a directory that can be read throughout, with plain names,
all distinct. -/
def Forest.Plain : Forest → Prop
  | Forest.nil => True
  | Forest.cons name node rest =>
    PlainName name ∧ name ∉ rest.names ∧ node.Plain ∧ rest.Plain
end

/-- A local root in the form `filepath.Clean` gives it, other than `/` and
`.`. -/
def CleanRoot (root : Str) : Prop := clean root = root ∧ root ≠ [sep] ∧ root ≠ ['.']

instance (root : Str) : Decidable (CleanRoot root) := by
  unfold CleanRoot; infer_instance

/-! ## Examples -/

/-- A server holding `/www` with a file and a directory in it. -/
def demoServer : Server :=
  { addr := "ftp.example.org:21".toList
    user := "deploy".toList
    password := "secret".toList
    graceful := true
    files :=
      [(["www".toList], RNode.dir),
       (["www".toList, "old.txt".toList], RNode.file [1]),
       (["www".toList, "img".toList], RNode.dir),
       (["www".toList, "img".toList, "a.png".toList], RNode.file [2]),
       (["www".toList, "robots.txt".toList], RNode.file [3])] }

/-- The world `demoServer` after the delete of `/www/old.txt`. -/
def demoServer1 : Server :=
  { demoServer with files := demoServer.files.filter (fun b => b.1 ≠ ["www".toList, "old.txt".toList]) }

/-- The world `demoServer` after the wipe of `/www`. -/
def demoServerWiped : Server :=
  { demoServer with files := [(["www".toList], RNode.dir)] }

/-- The world `demoServerWiped` after the create-directory of `/www/css`. -/
def demoServerCss : Server :=
  { demoServerWiped with files := (["www".toList, "css".toList], RNode.dir) :: demoServerWiped.files }

/-- The server of `demoServer`, closing the connection without answering
`QUIT`. -/
def abruptServer : Server := { demoServer with graceful := false }

/-- The server of `demoServer`, refusing to delete the directory `/www/img`. -/
def lockedImg : Client Server :=
  withFaults (fun o => decide (o = Op.removeDirRecur "/www/img".toList)) ftpServer

/-- The server of `demoServer`, refusing to store `/www/css/a.css`. -/
def lockedCss : Client Server :=
  withFaults (fun o => decide (o = Op.stor "/www/css/a.css".toList [7])) ftpServer

/-- A project for `demoServer` with the given name, local root, host and
password, mirrored under `/www`. -/
def demoProject (name localPath host password : String) : Project :=
  { Name := name.toList
    LocalPath := localPath.toList
    RemotePath := "/www".toList
    Connection :=
      { Host := host.toList
        Username := "deploy".toList
        Password := password.toList
        Port := 21 } }

/-- The project `site`, with the root `site`. -/
def siteProject : Project := demoProject "site" "site" "ftp.example.org" "secret"

/-- The project `blog`, on a host where nothing listens. -/
def blogProject : Project := demoProject "blog" "blog" "down.example.org" "secret"

/-- The project `docs`, on the host of `demoServer`. -/
def docsProject : Project := demoProject "docs" "docs" "ftp.example.org" "secret"

/-- The project `site` with a wrong password. -/
def wrongPassword : Project := demoProject "site" "site" "ftp.example.org" "wrong"

/-- The project `site` with a remote root that does not exist. -/
def missingRoot : Project := { siteProject with RemotePath := "/nope".toList }

/-- The project `site` with its local root written `site/`. -/
def trailingSlash : Project := demoProject "site" "site/" "ftp.example.org" "secret"

/-- The project `site` with its local root written `./site`. -/
def dotSlash : Project := demoProject "site" "./site" "ftp.example.org" "secret"

/-- A local tree: the directory `css` with the file `a.css`, and the file
`index.html`. -/
def demoTree : Node :=
  Node.dir
    (Forest.cons "css".toList (Node.dir (Forest.cons "a.css".toList (Node.file [7]) Forest.nil))
      (Forest.cons "index.html".toList (Node.file [1, 2]) Forest.nil))

/-- The directory `css` of `demoTree`. -/
def demoCss : Node := Node.dir (Forest.cons "a.css".toList (Node.file [7]) Forest.nil)

/-- The local file system in which every project root holds `demoTree`. -/
def demoFs : Str → Node := fun _ => demoTree

/-- The local file system in which every project root is an empty directory. -/
def emptyFs : Str → Node := fun _ => Node.dir Forest.nil

/-! ## The walk as a list of calls -/

theorem runVisits_append {τ : Type} (fn : WalkFunc τ) (xs ys : List Visit) (st : τ) :
    runVisits fn (xs ++ ys) st =
      match runVisits fn xs st with
      | (some e, st1) => (some e, st1)
      | (none, st1) => runVisits fn ys st1 := by
  induction xs generalizing st with
  | nil => simp [runVisits]
  | cons v vs ih =>
    simp only [List.cons_append, runVisits]
    rcases h : fn v.path v.info v.err st with ⟨_ | e, st1⟩
    · simp [ih]
    · simp

mutual
theorem walk_eq_runVisits {τ : Type} (fn : WalkFunc τ) :
    ∀ (info : Node) (path : Str) (st : τ),
      walk fn path info st = runVisits fn (walkVisits path info) st
  | Node.dir entries, path, st => by
    rcases h : fn path (Node.dir entries) none st with ⟨_ | e, st1⟩
    · simp [walk, walkVisits, runVisits, h, walkNames_eq_runVisits fn entries path st1]
    · simp [walk, walkVisits, runVisits, h]
  | Node.noRead err, path, st => by
    rcases h : fn path (Node.noRead err) (some err) st with ⟨_ | e, st1⟩ <;>
      simp [walk, walkVisits, runVisits, h]
  | Node.file c, path, st => by
    rcases h : fn path (Node.file c) none st with ⟨_ | e, st1⟩ <;>
      simp [walk, walkVisits, runVisits, h]
  | Node.noOpen err, path, st => by
    rcases h : fn path (Node.noOpen err) none st with ⟨_ | e, st1⟩ <;>
      simp [walk, walkVisits, runVisits, h]
  | Node.noStat err, path, st => by
    rcases h : fn path (Node.noStat err) none st with ⟨_ | e, st1⟩ <;>
      simp [walk, walkVisits, runVisits, h]
theorem walkNames_eq_runVisits {τ : Type} (fn : WalkFunc τ) :
    ∀ (names : Forest) (path : Str) (st : τ),
      walkNames fn path names st = runVisits fn (namesVisits path names) st
  | Forest.nil, path, st => by
    simp [walkNames, namesVisits, runVisits]
  | Forest.cons name node rest, path, st => by
    cases node with
    | noStat err =>
      rcases h : fn (join path name) (Node.noStat err) (some err) st with ⟨_ | e, st1⟩
      · simp [walkNames, namesVisits, runVisits, h, walkNames_eq_runVisits fn rest path st1]
      · simp [walkNames, namesVisits, runVisits, h]
    | dir entries =>
      have hw := walk_eq_runVisits fn (Node.dir entries) (join path name) st
      rcases h : walk fn (join path name) (Node.dir entries) st with ⟨_ | e, st1⟩
      · rw [h] at hw
        simp [walkNames, namesVisits, runVisits_append, h, ← hw,
          walkNames_eq_runVisits fn rest path st1]
      · rw [h] at hw
        simp [walkNames, namesVisits, runVisits_append, h, ← hw]
    | noRead err =>
      have hw := walk_eq_runVisits fn (Node.noRead err) (join path name) st
      rcases h : walk fn (join path name) (Node.noRead err) st with ⟨_ | e, st1⟩
      · rw [h] at hw
        simp [walkNames, namesVisits, runVisits_append, h, ← hw,
          walkNames_eq_runVisits fn rest path st1]
      · rw [h] at hw
        simp [walkNames, namesVisits, runVisits_append, h, ← hw]
    | file c =>
      have hw := walk_eq_runVisits fn (Node.file c) (join path name) st
      rcases h : walk fn (join path name) (Node.file c) st with ⟨_ | e, st1⟩
      · rw [h] at hw
        simp [walkNames, namesVisits, runVisits_append, h, ← hw,
          walkNames_eq_runVisits fn rest path st1]
      · rw [h] at hw
        simp [walkNames, namesVisits, runVisits_append, h, ← hw]
    | noOpen err =>
      have hw := walk_eq_runVisits fn (Node.noOpen err) (join path name) st
      rcases h : walk fn (join path name) (Node.noOpen err) st with ⟨_ | e, st1⟩
      · rw [h] at hw
        simp [walkNames, namesVisits, runVisits_append, h, ← hw,
          walkNames_eq_runVisits fn rest path st1]
      · rw [h] at hw
        simp [walkNames, namesVisits, runVisits_append, h, ← hw]
end

theorem Walk_eq_runVisits {τ : Type} (fn : WalkFunc τ) (root : Str) (info : Node) (st : τ) :
    Walk root info fn st = runVisits fn (rootVisits root info) st := by
  cases info with
  | noStat err =>
    rcases h : fn root (Node.noStat err) (some err) st with ⟨_ | e, st1⟩ <;>
      simp [Walk, rootVisits, runVisits, h]
  | dir entries => simp [Walk, rootVisits, walk_eq_runVisits]
  | noRead err => simp [Walk, rootVisits, walk_eq_runVisits]
  | file c => simp [Walk, rootVisits, walk_eq_runVisits]
  | noOpen err => simp [Walk, rootVisits, walk_eq_runVisits]

/-! ## Traces -/

@[simp] theorem remoteOps_append (a b : List Event) :
    remoteOps (a ++ b) = remoteOps a ++ remoteOps b := by
  induction a with
  | nil => rfl
  | cons e es ih => cases e <;> simp [remoteOps, ih]

@[simp] theorem errorLines_append (a b : List Event) :
    errorLines (a ++ b) = errorLines a ++ errorLines b := by
  induction a with
  | nil => rfl
  | cons e es ih => cases e <;> simp [errorLines, ih]

@[simp] theorem Run.after_world (r : Run σ) (tr : List Event) : (r.after tr).world = r.world := rfl

@[simp] theorem Run.after_trace (r : Run σ) (tr : List Event) :
    (r.after tr).trace = tr ++ r.trace := rfl

@[simp] theorem Run.start_world (w : σ) : (Run.start w).world = w := rfl

@[simp] theorem Run.start_trace (w : σ) : (Run.start w).trace = [] := rfl

theorem Run.after_after (r : Run σ) (a b : List Event) : (r.after a).after b = r.after (b ++ a) := by
  simp [Run.after]

theorem Run.start_after (st : Run σ) : (Run.start st.world).after st.trace = st := by
  cases st; simp [Run.after, Run.start]

theorem walkFn_framed (W : Client σ) (p : Project) (path : Str) (info : Node)
    (err : Option Error) : Framed (walkFn W p path info err) := by
  intro st
  cases err with
  | some e => simp [walkFn, Run.after, Run.start]
  | none =>
    simp only [walkFn]
    split
    · simp [Run.after, Run.start]
    · split
      · rcases h : W.makeDir (p.RemotePath ++ trimPrefix path p.LocalPath) st.world with ⟨_ | e, w1⟩ <;>
          simp [Run.call, Run.log, Run.after, Run.start, h]
      · cases ho : info.open with
        | error e => simp [Run.log, Run.after, Run.start]
        | ok file =>
          rcases h : W.stor (p.RemotePath ++ trimPrefix path p.LocalPath) file st.world
            with ⟨_ | e, w1⟩ <;>
            simp [Run.call, Run.log, Run.after, Run.start, h]

theorem runVisits_framed (fn : WalkFunc (Run σ))
    (hfn : ∀ path info err, Framed (fn path info err)) (vs : List Visit) :
    Framed (runVisits fn vs) := by
  induction vs with
  | nil => intro st; simp [runVisits, Run.after, Run.start]
  | cons v vs ih =>
    intro st
    simp only [runVisits]
    rw [hfn v.path v.info v.err st]
    rcases h : fn v.path v.info v.err (Run.start st.world) with ⟨_ | e, st1⟩
    · simp only [Run.start_world]
      rw [ih (st1.after st.trace), ih st1]
      simp [Run.after_after]
    · simp

theorem Walk_framed (W : Client σ) (p : Project) (root : Str) (info : Node) :
    Framed (Walk root info (walkFn W p)) := by
  intro st
  rw [Walk_eq_runVisits, Walk_eq_runVisits]
  exact runVisits_framed _ (walkFn_framed W p) _ st

theorem upload_framed (W : Client σ) (fs : Str → Node) (p : Project) (st : Run σ) :
    upload W fs p st = (upload W fs p (Run.start st.world)).after st.trace := by
  simp only [upload]
  rw [Walk_framed W p p.LocalPath (fs p.LocalPath) st]
  rcases h : Walk p.LocalPath (fs p.LocalPath) (walkFn W p) (Run.start st.world)
    with ⟨_ | e, st1⟩
  · rcases hq : W.quit st1.world with ⟨_ | e, w1⟩ <;>
      simp [Run.call, Run.log, Run.after, Run.start, hq]
  · rcases hq : W.quit st1.world with ⟨_ | e, w1⟩ <;>
      simp [Run.call, Run.log, Run.after, Run.start, hq]

theorem wipe_framed (W : Client σ) (p : Project) (es : List Entry) : Framed (wipe W p es) := by
  induction es with
  | nil => intro st; simp [wipe, Run.after, Run.start]
  | cons e es ih =>
    intro st
    simp only [wipe]
    split
    · rcases h : W.delete (p.RemotePath ++ '/' :: e.Name) st.world with ⟨_ | err, w1⟩
      · simp only [Run.call, h, Run.start_world, Run.start_trace, List.nil_append]
        rw [ih ⟨w1, st.trace ++ [Event.call (Op.delete (p.RemotePath ++ '/' :: e.Name)) none]⟩,
          ih ⟨w1, [Event.call (Op.delete (p.RemotePath ++ '/' :: e.Name)) none]⟩]
        simp [Run.after]
      · simp [Run.call, Run.log, Run.after, Run.start, h]
    · rcases h : W.removeDirRecur (p.RemotePath ++ '/' :: e.Name) st.world with ⟨_ | err, w1⟩
      · simp only [Run.call, h, Run.start_world, Run.start_trace, List.nil_append]
        rw [ih ⟨w1, st.trace ++ [Event.call (Op.removeDirRecur (p.RemotePath ++ '/' :: e.Name)) none]⟩,
          ih ⟨w1, [Event.call (Op.removeDirRecur (p.RemotePath ++ '/' :: e.Name)) none]⟩]
        simp [Run.after]
      · simp [Run.call, Run.log, Run.after, Run.start, h]

/-! ## The cases of an iteration -/

theorem mirrorProject_dial_failed (W : Client σ) (fs : Str → Node) (p : Project) (st : Run σ)
    (e : Error) (w1 : σ) (hd : W.dial (dialAddr p) 5 st.world = (some e, w1)) :
    mirrorProject W fs p st =
      ⟨w1, st.trace ++ [Event.call (Op.dial (dialAddr p) 5) (some e),
        Event.logError "dial error" e]⟩ := by
  simp [mirrorProject, Run.call, Run.log, hd]

theorem mirrorProject_login_failed (W : Client σ) (fs : Str → Node) (p : Project) (st : Run σ)
    (e : Error) (w1 w2 : σ) (hd : W.dial (dialAddr p) 5 st.world = (none, w1))
    (hl : W.login p.Connection.Username p.Connection.Password w1 = (some e, w2)) :
    mirrorProject W fs p st =
      ⟨w2, st.trace ++ [Event.call (Op.dial (dialAddr p) 5) none,
        Event.call (Op.login p.Connection.Username p.Connection.Password) (some e),
        Event.logError "connection error" e]⟩ := by
  simp [mirrorProject, Run.call, Run.log, hd, hl]

theorem mirrorProject_list_failed (W : Client σ) (fs : Str → Node) (p : Project) (st : Run σ)
    (e : Error) (l : List Entry) (w1 w2 w3 : σ)
    (hd : W.dial (dialAddr p) 5 st.world = (none, w1))
    (hl : W.login p.Connection.Username p.Connection.Password w1 = (none, w2))
    (hls : W.list p.RemotePath w2 = ((l, some e), w3)) :
    mirrorProject W fs p st =
      ⟨w3, st.trace ++ [Event.call (Op.dial (dialAddr p) 5) none,
        Event.call (Op.login p.Connection.Username p.Connection.Password) none,
        Event.call (Op.list p.RemotePath) (some e),
        Event.logError "can not get list of remote entries in root" e]⟩ := by
  simp [mirrorProject, Run.call, Run.log, hd, hl, hls]

theorem mirrorProject_listed (W : Client σ) (fs : Str → Node) (p : Project) (st : Run σ)
    (l : List Entry) (w1 w2 w3 : σ)
    (hd : W.dial (dialAddr p) 5 st.world = (none, w1))
    (hl : W.login p.Connection.Username p.Connection.Password w1 = (none, w2))
    (hls : W.list p.RemotePath w2 = ((l, none), w3)) :
    mirrorProject W fs p st =
      match wipe W p l ⟨w3, st.trace ++ [Event.call (Op.dial (dialAddr p) 5) none,
        Event.call (Op.login p.Connection.Username p.Connection.Password) none,
        Event.call (Op.list p.RemotePath) none]⟩ with
      | (some _, st4) => st4
      | (none, st4) => upload W fs p st4 := by
  simp [mirrorProject, Run.call, hd, hl, hls]

theorem mirrorProject_framed (W : Client σ) (fs : Str → Node) (p : Project) (st : Run σ) :
    mirrorProject W fs p st = (mirrorProject W fs p (Run.start st.world)).after st.trace := by
  rcases hd : W.dial (dialAddr p) 5 st.world with ⟨_ | e, w1⟩
  · rcases hl : W.login p.Connection.Username p.Connection.Password w1 with ⟨_ | e, w2⟩
    · rcases hls : W.list p.RemotePath w2 with ⟨⟨l, _ | e⟩, w3⟩
      · rw [mirrorProject_listed W fs p st l w1 w2 w3 hd hl hls,
          mirrorProject_listed W fs p (Run.start st.world) l w1 w2 w3 hd hl hls]
        rw [wipe_framed W p l ⟨w3, _⟩]
        simp only [Run.start_world, Run.start_trace, List.nil_append]
        rw [wipe_framed W p l ⟨w3, [_, _, _]⟩]
        simp only [Run.start_world, Run.start_trace]
        rcases hw : wipe W p l (Run.start w3) with ⟨_ | e, st4⟩
        · simp only []
          rw [upload_framed W fs p (st4.after _), upload_framed W fs p (st4.after [_, _, _])]
          simp [Run.after]
        · simp [Run.after]
      · rw [mirrorProject_list_failed W fs p st e l w1 w2 w3 hd hl hls,
          mirrorProject_list_failed W fs p (Run.start st.world) e l w1 w2 w3 hd hl hls]
        simp [Run.after]
    · rw [mirrorProject_login_failed W fs p st e w1 w2 hd hl,
        mirrorProject_login_failed W fs p (Run.start st.world) e w1 w2 hd hl]
      simp [Run.after]
  · rw [mirrorProject_dial_failed W fs p st e w1 hd,
      mirrorProject_dial_failed W fs p (Run.start st.world) e w1 hd]
    simp [Run.after]

theorem main_nil (W : Client σ) (fs : Str → Node) (st : Run σ) : main W fs ⟨[]⟩ st = st := rfl

theorem main_cons (W : Client σ) (fs : Str → Node) (p : Project) (ps : List Project)
    (st : Run σ) : main W fs ⟨p :: ps⟩ st = main W fs ⟨ps⟩ (mirrorProject W fs p st) := rfl

theorem main_append (W : Client σ) (fs : Str → Node) (ps qs : List Project) (st : Run σ) :
    main W fs ⟨ps ++ qs⟩ st = main W fs ⟨qs⟩ (main W fs ⟨ps⟩ st) := by
  simp [main, List.foldl_append]

/-! ## The wipe -/

theorem wipe_cons_ok (W : Client σ) (p : Project) (e : Entry) (es : List Entry) (w w1 : σ)
    (h : deleteCall W p e w = (none, w1)) :
    wipe W p (e :: es) (Run.start w) =
      ((wipe W p es (Run.start w1)).1,
        (wipe W p es (Run.start w1)).2.after [deleteEvent p none e]) := by
  cases ht : e.type <;> simp only [deleteCall, ht] at h <;>
    simp only [wipe, ht, Run.call, Run.start_world, Run.start_trace, List.nil_append, h,
      deleteEvent, deleteOp, reduceCtorEq, if_true, if_false] <;>
    rw [wipe_framed W p es ⟨w1, _⟩]

theorem wipe_cons_failed (W : Client σ) (p : Project) (e : Entry) (es : List Entry) (w w1 : σ)
    (err : Error) (h : deleteCall W p e w = (some err, w1)) :
    wipe W p (e :: es) (Run.start w) =
      (some err, ⟨w1, [deleteEvent p (some err) e,
        Event.logError "can not delete remote entry" err]⟩) := by
  cases ht : e.type <;> simp only [deleteCall, ht] at h <;>
    simp [wipe, ht, Run.call, Run.log, Run.start, h, deleteEvent, deleteOp]

theorem wipe_succeeds (W : Client σ) (p : Project) (es : List Entry) (w w1 : σ)
    (h : deletionsSucceed W p es w = some w1) :
    wipe W p es (Run.start w) = (none, ⟨w1, es.map (deleteEvent p none)⟩) := by
  induction es generalizing w with
  | nil =>
    simp only [deletionsSucceed, Option.some.injEq] at h
    subst h
    rfl
  | cons e es ih =>
    simp only [deletionsSucceed] at h
    rcases hc : deleteCall W p e w with ⟨_ | err, w2⟩
    · rw [hc] at h
      rw [wipe_cons_ok W p e es w w2 hc, ih w2 h]
      simp [Run.after]
    · rw [hc] at h
      simp at h

theorem wipe_fails (W : Client σ) (p : Project) (pre post : List Entry) (e : Entry)
    (w w1 w2 : σ) (err : Error) (hpre : deletionsSucceed W p pre w = some w1)
    (hfail : deleteCall W p e w1 = (some err, w2)) :
    wipe W p (pre ++ e :: post) (Run.start w) =
      (some err, ⟨w2, pre.map (deleteEvent p none) ++
        [deleteEvent p (some err) e, Event.logError "can not delete remote entry" err]⟩) := by
  induction pre generalizing w with
  | nil =>
    simp only [deletionsSucceed, Option.some.injEq] at hpre
    subst hpre
    simpa using wipe_cons_failed W p e post w w2 err hfail
  | cons a pre ih =>
    simp only [deletionsSucceed] at hpre
    rcases hc : deleteCall W p a w with ⟨_ | err1, w3⟩
    · rw [hc] at hpre
      rw [List.cons_append, wipe_cons_ok W p a (pre ++ e :: post) w w3 hc, ih w3 hpre]
      simp [Run.after]
    · rw [hc] at hpre
      simp at hpre

theorem remoteOps_deleteEvents (p : Project) (err : Option Error) (es : List Entry) :
    remoteOps (es.map (deleteEvent p err)) = es.map (deleteOp p) := by
  induction es with
  | nil => rfl
  | cons e es ih => simp [deleteEvent, remoteOps, ih]

theorem errorLines_deleteEvents (p : Project) (err : Option Error) (es : List Entry) :
    errorLines (es.map (deleteEvent p err)) = [] := by
  induction es with
  | nil => rfl
  | cons e es ih => simp [deleteEvent, errorLines, ih]

/-! ## The upload -/

theorem walkFn_ops (W : Client σ) (p : Project) (path : Str) (info : Node)
    (err : Option Error) (w : σ) :
    remoteOps (walkFn W p path info err (Run.start w)).2.trace = [] ∨
    remoteOps (walkFn W p path info err (Run.start w)).2.trace = [Op.makeDir (remotePathOf p path)] ∨
    ∃ c, remoteOps (walkFn W p path info err (Run.start w)).2.trace
      = [Op.stor (remotePathOf p path) c] := by
  cases err with
  | some e => left; simp [walkFn, remoteOps]
  | none =>
    simp only [walkFn]
    split
    · left; simp [remoteOps]
    · split
      · right; left
        rcases h : W.makeDir (p.RemotePath ++ trimPrefix path p.LocalPath) w
          with ⟨_ | e, w1⟩ <;>
          simp [Run.call, Run.log, Run.start, h, remoteOps, remotePathOf]
      · cases ho : info.open with
        | error e => left; simp [Run.log, Run.start, remoteOps]
        | ok file =>
          right; right
          refine ⟨file, ?_⟩
          rcases h : W.stor (p.RemotePath ++ trimPrefix path p.LocalPath) file w
            with ⟨_ | e, w1⟩ <;>
            simp [Run.call, Run.log, Run.start, h, remoteOps, remotePathOf]

theorem walkFn_ops_isUpload (W : Client σ) (p : Project) (path : Str) (info : Node)
    (err : Option Error) (w : σ) :
    ∀ o ∈ remoteOps (walkFn W p path info err (Run.start w)).2.trace, o.isUpload = true := by
  intro o ho
  rcases walkFn_ops W p path info err w with h | h | ⟨c, h⟩ <;> rw [h] at ho <;> simp at ho
  · subst ho; rfl
  · subst ho; rfl

theorem runVisits_ops_isUpload (W : Client σ) (p : Project) (vs : List Visit) (w : σ) :
    ∀ o ∈ remoteOps (runVisits (walkFn W p) vs (Run.start w)).2.trace, o.isUpload = true := by
  induction vs generalizing w with
  | nil => simp [runVisits, remoteOps]
  | cons v vs ih =>
    intro o ho
    simp only [runVisits] at ho
    have h1 := walkFn_ops_isUpload W p v.path v.info v.err w
    rcases h : walkFn W p v.path v.info v.err (Run.start w) with ⟨_ | e, st1⟩
    · rw [h] at ho h1
      simp only at ho h1
      rw [runVisits_framed _ (walkFn_framed W p) vs st1] at ho
      simp only [Run.after_trace, remoteOps_append, List.mem_append] at ho
      rcases ho with ho | ho
      · exact h1 o ho
      · exact ih st1.world o ho
    · rw [h] at ho h1
      exact h1 o ho

/-- The upload phase, from the calls of the walk: the calls of the walk function
up to the first error, the line for a walk error, and the quit. -/
theorem upload_eq (W : Client σ) (fs : Str → Node) (p : Project) (w : σ) :
    upload W fs p (Run.start w) =
      (match runVisits (walkFn W p) (rootVisits p.LocalPath (fs p.LocalPath)) (Run.start w) with
        | (some e, st1) =>
          match W.quit st1.world with
          | (some eq, w2) => ⟨w2, st1.trace ++ [Event.logError "error walking" e,
              Event.call Op.quit (some eq), Event.logError "error walking" eq]⟩
          | (none, w2) => ⟨w2, st1.trace ++ [Event.logError "error walking" e,
              Event.call Op.quit none]⟩
        | (none, st1) =>
          match W.quit st1.world with
          | (some eq, w2) => ⟨w2, st1.trace ++ [Event.call Op.quit (some eq),
              Event.logError "error walking" eq]⟩
          | (none, w2) => ⟨w2, st1.trace ++ [Event.call Op.quit none]⟩) := by
  simp only [upload, Walk_eq_runVisits]
  rcases h : runVisits (walkFn W p) (rootVisits p.LocalPath (fs p.LocalPath)) (Run.start w)
    with ⟨_ | e, st1⟩
  · rcases hq : W.quit st1.world with ⟨_ | e, w1⟩ <;> simp [Run.call, Run.log, hq]
  · rcases hq : W.quit st1.world with ⟨_ | e, w1⟩ <;> simp [Run.call, Run.log, hq]

theorem upload_ops (W : Client σ) (fs : Str → Node) (p : Project) (w : σ) :
    remoteOps (upload W fs p (Run.start w)).trace =
      remoteOps (runVisits (walkFn W p) (rootVisits p.LocalPath (fs p.LocalPath))
        (Run.start w)).2.trace ++ [Op.quit] := by
  rw [upload_eq]
  rcases h : runVisits (walkFn W p) (rootVisits p.LocalPath (fs p.LocalPath)) (Run.start w)
    with ⟨_ | e, st1⟩
  · rcases hq : W.quit st1.world with ⟨_ | e, w1⟩ <;> simp [remoteOps, hq]
  · rcases hq : W.quit st1.world with ⟨_ | e, w1⟩ <;> simp [remoteOps, hq]

theorem walkFn_ops_eq (W : Client σ) (p : Project) (v : Visit) (w : σ) :
    remoteOps (walkFn W p v.path v.info v.err (Run.start w)).2.trace = opOf p v := by
  rcases v with ⟨path, info, err⟩
  cases err with
  | some e => simp [walkFn, opOf, remoteOps]
  | none =>
    simp only [walkFn, opOf]
    by_cases hp : path = p.LocalPath
    · simp [hp, remoteOps]
    · simp only [hp, if_false]
      by_cases hdir : info.isDir = true
      · simp only [hdir, if_true]
        rcases h : W.makeDir (p.RemotePath ++ trimPrefix path p.LocalPath) w with ⟨_ | e, w1⟩ <;>
          simp [Run.call, Run.log, Run.start, h, remoteOps, remotePathOf]
      · simp only [hdir, Bool.false_eq_true, if_false]
        cases ho : info.open with
        | error e => simp [Run.log, Run.start, remoteOps]
        | ok c =>
          rcases h : W.stor (p.RemotePath ++ trimPrefix path p.LocalPath) c w with ⟨_ | e, w1⟩ <;>
            simp [Run.call, Run.log, Run.start, h, remoteOps, remotePathOf]

theorem opOf_isUpload (p : Project) (v : Visit) : ∀ o ∈ opOf p v, o.isUpload = true := by
  intro o ho
  rcases v with ⟨path, info, err⟩
  cases err with
  | some e => simp [opOf] at ho
  | none =>
    simp only [opOf] at ho
    split at ho
    · simp at ho
    · split at ho
      · simp only [List.mem_singleton] at ho
        subst ho; rfl
      · split at ho
        · simp only [List.mem_singleton] at ho
          subst ho; rfl
        · simp at ho

theorem opOf_length (p : Project) (v : Visit) : (opOf p v).length ≤ 1 := by
  rcases v with ⟨path, info, err⟩
  cases err with
  | some e => simp [opOf]
  | none =>
    simp only [opOf]
    split
    · simp
    · split
      · simp
      · split <;> simp

theorem opsOf_isUpload (p : Project) (vs : List Visit) : ∀ o ∈ opsOf p vs, o.isUpload = true := by
  induction vs with
  | nil => simp [opsOf]
  | cons v vs ih =>
    intro o ho
    simp only [opsOf, List.mem_append] at ho
    rcases ho with ho | ho
    · exact opOf_isUpload p v o ho
    · exact ih o ho

/-- The walk function returns the error of a failing step. -/
theorem walkFn_of_stepFails (W : Client σ) (p : Project) (v : Visit) (w : σ) (e : Error)
    (h : StepFails W p v w e) :
    (walkFn W p v.path v.info v.err (Run.start w)).1 = some e := by
  rcases v with ⟨path, info, err⟩
  cases h with
  | walkError herr =>
    simp only at herr
    subst herr
    simp [walkFn]
  | makeDir herr hp hdir hm =>
    simp only at herr hp hdir hm
    subst herr
    rcases hc : W.makeDir (remotePathOf p path) w with ⟨_ | e1, w1⟩
    · rw [hc] at hm; simp at hm
    · rw [hc] at hm
      simp only [Option.some.injEq] at hm
      subst hm
      simp only [remotePathOf] at hc
      simp [walkFn, hp, hdir, Run.call, Run.log, hc]
  | openFile herr hp hdir ho =>
    simp only at herr hp hdir ho
    subst herr
    simp [walkFn, hp, hdir, ho]
  | stor c herr hp hdir ho hs =>
    simp only at herr hp hdir ho hs
    subst herr
    rcases hc : W.stor (remotePathOf p path) c w with ⟨_ | e1, w1⟩
    · rw [hc] at hs; simp at hs
    · rw [hc] at hs
      simp only [Option.some.injEq] at hs
      subst hs
      simp only [remotePathOf] at hc
      simp [walkFn, hp, hdir, ho, Run.call, Run.log, hc]

/-- When the steps for the entries of a list succeed, the walk function runs
over them without an error, reaches the same world, and has issued their
operations. -/
theorem runVisits_of_replicated (W : Client σ) (p : Project) (vs : List Visit) (w w1 : σ)
    (h : replicated W p vs w = some w1) :
    (runVisits (walkFn W p) vs (Run.start w)).1 = none ∧
    (runVisits (walkFn W p) vs (Run.start w)).2.world = w1 ∧
    remoteOps (runVisits (walkFn W p) vs (Run.start w)).2.trace = opsOf p vs := by
  induction vs generalizing w with
  | nil =>
    simp only [replicated, Option.some.injEq] at h
    subst h
    simp [runVisits, opsOf, remoteOps]
  | cons v vs ih =>
    have hops := walkFn_ops_eq W p v w
    rcases v with ⟨path, info, err⟩
    simp only at hops
    cases err with
    | some e => simp [replicated] at h
    | none =>
      simp only [replicated] at h
      simp only [runVisits, opsOf]
      by_cases hp : path = p.LocalPath
      · rw [if_pos hp] at h
        have hw : walkFn W p path info none (Run.start w) = (none, Run.start w) := by
          simp [walkFn, hp]
        rw [hw] at hops
        simp only [hw, ← hops]
        simpa [remoteOps] using ih w h
      · rw [if_neg hp] at h
        by_cases hdir : info.isDir = true
        · rw [if_pos hdir] at h
          rcases hc : W.makeDir (remotePathOf p path) w with ⟨_ | e1, w2⟩
          · rw [hc] at h
            simp only at h
            simp only [remotePathOf] at hc
            have hw : walkFn W p path info none (Run.start w)
                = (none, ⟨w2, [Event.call (Op.makeDir (p.RemotePath ++ trimPrefix path p.LocalPath))
                    none]⟩) := by
              simp [walkFn, hp, hdir, Run.call, Run.start, hc]
            rw [hw] at hops
            simp only [hw, ← hops]
            rw [runVisits_framed _ (walkFn_framed W p) vs ⟨w2, _⟩]
            have := ih w2 h
            simp only [Run.start_world] at this ⊢
            simp only [Run.after_world, Run.after_trace, remoteOps_append]
            exact ⟨this.1, this.2.1, by rw [this.2.2]⟩
          · rw [hc] at h
            simp at h
        · rw [if_neg hdir] at h
          cases ho : info.open with
          | error e1 => rw [ho] at h; simp at h
          | ok c =>
            rw [ho] at h
            simp only at h
            rcases hc : W.stor (remotePathOf p path) c w with ⟨_ | e1, w2⟩
            · rw [hc] at h
              simp only at h
              simp only [remotePathOf] at hc
              have hw : walkFn W p path info none (Run.start w)
                  = (none, ⟨w2, [Event.call
                      (Op.stor (p.RemotePath ++ trimPrefix path p.LocalPath) c) none]⟩) := by
                simp [walkFn, hp, hdir, ho, Run.call, Run.start, hc]
              rw [hw] at hops
              simp only [hw, ← hops]
              rw [runVisits_framed _ (walkFn_framed W p) vs ⟨w2, _⟩]
              have := ih w2 h
              simp only [Run.start_world] at this ⊢
              simp only [Run.after_world, Run.after_trace, remoteOps_append]
              exact ⟨this.1, this.2.1, by rw [this.2.2]⟩
            · rw [hc] at h
              simp at h

/-! ## The loop over the projects -/

@[simp] theorem dials_append (a b : List Event) : dials (a ++ b) = dials a ++ dials b := by
  simp [dials]

theorem dials_eq_nil (tr : List Event) (h : ∀ o ∈ remoteOps tr, o.isDial = false) :
    dials tr = [] := by
  simp only [dials, List.filter_eq_nil_iff]
  intro o ho
  simp [h o ho]

theorem wipe_ops_initial (W : Client σ) (p : Project) (es : List Entry) (w : σ) :
    remoteOps (wipe W p es (Run.start w)).2.trace <+: es.map (deleteOp p) := by
  induction es generalizing w with
  | nil => simp [wipe, remoteOps]
  | cons e es ih =>
    rcases hc : deleteCall W p e w with ⟨_ | err, w1⟩
    · rw [wipe_cons_ok W p e es w w1 hc]
      simp only [Run.after_trace, remoteOps_append, List.map_cons]
      simpa [deleteEvent, remoteOps] using ih w1
    · rw [wipe_cons_failed W p e es w w1 err hc]
      simp [deleteEvent, remoteOps]

theorem deleteOp_not_dial (p : Project) (e : Entry) : (deleteOp p e).isDial = false := by
  cases ht : e.type <;> simp [deleteOp, ht, Op.isDial]

theorem wipe_dials (W : Client σ) (p : Project) (es : List Entry) (w : σ) :
    dials (wipe W p es (Run.start w)).2.trace = [] := by
  apply dials_eq_nil
  intro o ho
  have hmem := (wipe_ops_initial W p es w).subset ho
  rcases List.mem_map.1 hmem with ⟨e, _, rfl⟩
  exact deleteOp_not_dial p e

theorem upload_dials (W : Client σ) (fs : Str → Node) (p : Project) (w : σ) :
    dials (upload W fs p (Run.start w)).trace = [] := by
  apply dials_eq_nil
  intro o ho
  rw [upload_ops] at ho
  rcases List.mem_append.1 ho with ho | ho
  · have := runVisits_ops_isUpload W p _ w o ho
    cases o <;> simp_all [Op.isUpload, Op.isDial]
  · simp at ho
    subst ho
    rfl

theorem mirrorProject_dials (W : Client σ) (fs : Str → Node) (p : Project) (w : σ) :
    dials (mirrorProject W fs p (Run.start w)).trace = [Op.dial (dialAddr p) 5] := by
  rcases hd : W.dial (dialAddr p) 5 w with ⟨_ | e, w1⟩
  · rcases hl : W.login p.Connection.Username p.Connection.Password w1 with ⟨_ | e, w2⟩
    · rcases hls : W.list p.RemotePath w2 with ⟨⟨l, _ | e⟩, w3⟩
      · rw [mirrorProject_listed W fs p (Run.start w) l w1 w2 w3 hd hl hls,
          wipe_framed W p l ⟨w3, _⟩]
        have hwd := wipe_dials W p l w3
        simp only [Run.start_world, Run.start_trace, List.nil_append] at hwd ⊢
        rcases hw : wipe W p l (Run.start w3) with ⟨_ | e, st4⟩
        · rw [hw] at hwd
          simp only [] at hwd ⊢
          rw [upload_framed W fs p (st4.after _)]
          simp only [Run.after_trace, Run.after_world, dials_append, hwd, upload_dials,
            List.append_nil]
          rfl
        · rw [hw] at hwd
          simp only [] at hwd ⊢
          simp only [Run.after_trace, dials_append, hwd, List.append_nil]
          rfl
      · rw [mirrorProject_list_failed W fs p (Run.start w) e l w1 w2 w3 hd hl hls]
        simp [dials, remoteOps, Op.isDial]
    · rw [mirrorProject_login_failed W fs p (Run.start w) e w1 w2 hd hl]
      simp [dials, remoteOps, Op.isDial]
  · rw [mirrorProject_dial_failed W fs p (Run.start w) e w1 hd]
    simp [dials, remoteOps, Op.isDial]

theorem main_dials (W : Client σ) (fs : Str → Node) (ps : List Project) (st : Run σ) :
    dials (main W fs ⟨ps⟩ st).trace = dials st.trace ++ ps.map (fun p => Op.dial (dialAddr p) 5) := by
  induction ps generalizing st with
  | nil => simp [main_nil]
  | cons p ps ih =>
    rw [main_cons, ih, mirrorProject_framed W fs p st]
    simp [mirrorProject_dials]

theorem main_framed (W : Client σ) (fs : Str → Node) (ps : List Project) (st : Run σ) :
    main W fs ⟨ps⟩ st = (main W fs ⟨ps⟩ (Run.start st.world)).after st.trace := by
  induction ps generalizing st with
  | nil => simp [main_nil, Run.start_after]
  | cons p ps ih =>
    rw [main_cons, main_cons, ih (mirrorProject W fs p st),
      ih (mirrorProject W fs p (Run.start st.world)), mirrorProject_framed W fs p st]
    simp [Run.after_after]

theorem main_eq_runEach (W : Client σ) (fs : Str → Node) (ps : List Project) (w : σ) :
    (main W fs ⟨ps⟩ (Run.start w)).trace = (runEach W fs ps w).1 ∧
    (main W fs ⟨ps⟩ (Run.start w)).world = (runEach W fs ps w).2 := by
  induction ps generalizing w with
  | nil => simp [main_nil, runEach]
  | cons p ps ih =>
    rw [main_cons, main_framed W fs ps (mirrorProject W fs p (Run.start w))]
    simp only [Run.after_trace, Run.after_world, runEach]
    exact ⟨by rw [(ih _).1], (ih _).2⟩

/-- C1 (failure isolation in the project loop).  Whatever the client answers:
the connects of a run of `main` are one per project, in input order; every
project is processed from the state the earlier projects left; for projects
`A, B, C` where the connect of `B` fails (a failed connect leaving the world as
it was), the run is the run for `A, C` with the failed connect of `B` and its
log line put between `A` and `C`: no other operation is issued for `B`, and
the operations for `A` and for `C` and the final world are the same; what an
iteration does for its project does not depend on the events so far, whatever
failed before (connect, login, list, delete, walk or quit), only on the world;
and so the events of a run are those of each project processed on its own, one
after the other, each in the world the earlier ones left. -/
theorem main_failure_isolation (W : Client σ) (fs : Str → Node) :
    (∀ (ps : List Project) (w : σ),
      dials (main W fs ⟨ps⟩ (Run.start w)).trace = ps.map (fun p => Op.dial (dialAddr p) 5)) ∧
    (∀ (ps qs : List Project) (p : Project) (st : Run σ),
      main W fs ⟨ps ++ p :: qs⟩ st = main W fs ⟨qs⟩ (mirrorProject W fs p (main W fs ⟨ps⟩ st))) ∧
    (∀ (A B C : Project) (w : σ) (e : Error),
      W.dial (dialAddr B) 5 (mirrorProject W fs A (Run.start w)).world
        = (some e, (mirrorProject W fs A (Run.start w)).world) →
      (main W fs ⟨[A, B, C]⟩ (Run.start w)).world = (main W fs ⟨[A, C]⟩ (Run.start w)).world ∧
      ∃ forC : List Event,
        (main W fs ⟨[A, C]⟩ (Run.start w)).trace
          = (mirrorProject W fs A (Run.start w)).trace ++ forC ∧
        (main W fs ⟨[A, B, C]⟩ (Run.start w)).trace
          = (mirrorProject W fs A (Run.start w)).trace
            ++ [Event.call (Op.dial (dialAddr B) 5) (some e), Event.logError "dial error" e]
            ++ forC) ∧
    (∀ (p : Project) (st : Run σ),
      mirrorProject W fs p st = (mirrorProject W fs p (Run.start st.world)).after st.trace) ∧
    (∀ (ps : List Project) (w : σ),
      (main W fs ⟨ps⟩ (Run.start w)).trace = (runEach W fs ps w).1 ∧
      (main W fs ⟨ps⟩ (Run.start w)).world = (runEach W fs ps w).2) := by
  refine ⟨?_, ?_, ?_, mirrorProject_framed W fs, main_eq_runEach W fs⟩
  · intro ps w
    simpa [dials, remoteOps] using main_dials W fs ps (Run.start w)
  · intro ps qs p st
    rw [main_append, main_cons]
  · intro A B C w e hB
    have hB1 := mirrorProject_dial_failed W fs B (mirrorProject W fs A (Run.start w)) e _ hB
    simp only [main_cons, main_nil, hB1]
    rw [mirrorProject_framed W fs C ⟨_, _⟩, mirrorProject_framed W fs C (mirrorProject W fs A _)]
    refine ⟨rfl, (mirrorProject W fs C
      (Run.start (mirrorProject W fs A (Run.start w)).world)).trace, rfl, ?_⟩
    simp [Run.after]

/-! ## The wipe: dispatch and abort -/

/-- C9 (wipe dispatch).  When the connect, the login and the listing succeed
and every delete operation for the listed entries succeeds, the operations of
the project are the connect, the login, the listing, then exactly one delete
operation per listed entry, in listing order, as `deleteOp` gives it (a direct
delete of `remoteRoot/name` for a file, a recursive delete of `remoteRoot/name`
for a directory and for any other kind), followed by the operations of the
upload phase, none of which is a delete. -/
theorem wipe_dispatch (W : Client σ) (fs : Str → Node) (p : Project) (w w1 w2 w3 w4 : σ)
    (l : List Entry)
    (hd : W.dial (dialAddr p) 5 w = (none, w1))
    (hl : W.login p.Connection.Username p.Connection.Password w1 = (none, w2))
    (hls : W.list p.RemotePath w2 = ((l, none), w3))
    (hdel : deletionsSucceed W p l w3 = some w4) :
    remoteOps (mirrorProject W fs p (Run.start w)).trace =
        [Op.dial (dialAddr p) 5, Op.login p.Connection.Username p.Connection.Password,
          Op.list p.RemotePath]
        ++ l.map (deleteOp p)
        ++ remoteOps (upload W fs p (Run.start w4)).trace ∧
    ∀ o ∈ remoteOps (upload W fs p (Run.start w4)).trace, o.isUpload = true ∨ o = Op.quit := by
  constructor
  · rw [mirrorProject_listed W fs p (Run.start w) l w1 w2 w3 hd hl hls,
      wipe_framed W p l ⟨w3, _⟩]
    simp only [Run.start_world, wipe_succeeds W p l w3 w4 hdel]
    rw [upload_framed W fs p (Run.after _ _)]
    simp [remoteOps, remoteOps_deleteEvents]
  · intro o ho
    rw [upload_ops] at ho
    rcases List.mem_append.1 ho with ho | ho
    · exact Or.inl (runVisits_ops_isUpload W p _ w4 o ho)
    · exact Or.inr (by simpa using ho)

/-- C3 (partial wipe, then abort).  When the connect, the login and the listing
succeed, the delete operations for the entries before `e` succeed and the one
for `e` fails, the operations of the project are the connect, the login, the
listing and the delete operations for the entries up to `e`, and nothing else:
no delete for the entries after `e`, no create-directory, no store; the world
is left as the failed delete left it. -/
theorem wipe_aborts_project (W : Client σ) (fs : Str → Node) (p : Project)
    (w w1 w2 w3 w4 w5 : σ) (pre post : List Entry) (e : Entry) (err : Error)
    (hd : W.dial (dialAddr p) 5 w = (none, w1))
    (hl : W.login p.Connection.Username p.Connection.Password w1 = (none, w2))
    (hls : W.list p.RemotePath w2 = ((pre ++ e :: post, none), w3))
    (hpre : deletionsSucceed W p pre w3 = some w4)
    (hfail : deleteCall W p e w4 = (some err, w5)) :
    remoteOps (mirrorProject W fs p (Run.start w)).trace =
        [Op.dial (dialAddr p) 5, Op.login p.Connection.Username p.Connection.Password,
          Op.list p.RemotePath]
        ++ pre.map (deleteOp p) ++ [deleteOp p e] ∧
    (mirrorProject W fs p (Run.start w)).world = w5 := by
  rw [mirrorProject_listed W fs p (Run.start w) (pre ++ e :: post) w1 w2 w3 hd hl hls,
    wipe_framed W p (pre ++ e :: post) ⟨w3, _⟩]
  simp only [Run.start_world, wipe_fails W p pre post e w3 w4 w5 err hpre hfail]
  simp [remoteOps, remoteOps_deleteEvents, deleteEvent]

/-! ## The abort of the walk -/

/-- C7 (walk abort without rollback, then quit).  The upload phase makes the
calls of the walk function in walk order.  If the steps for the entries before
`v` succeed (no walk error, every create-directory accepted, every file opened
and stored) and the entry `v` fails (a walk error, a failed create-directory, a
failed open or a failed store), the operations of the phase are exactly those
of the earlier entries, all create-directory or store, then at most the failed
operation on the remote path of `v`, then exactly one quit, and the error is
logged as a walk error: nothing is issued for a later entry and nothing is
deleted.  If the steps for all entries succeed, the operations are those of
the entries, then exactly one quit, the last operation. -/
theorem upload_abort_then_quit (W : Client σ) (fs : Str → Node) (p : Project) (w : σ) :
    (∀ (pre post : List Visit) (v : Visit) (w1 : σ) (e : Error),
      rootVisits p.LocalPath (fs p.LocalPath) = pre ++ v :: post →
      replicated W p pre w = some w1 →
      StepFails W p v w1 e →
      remoteOps (upload W fs p (Run.start w)).trace = opsOf p pre ++ opOf p v ++ [Op.quit] ∧
      (opOf p v).length ≤ 1 ∧
      (∀ o ∈ opOf p v, o = Op.makeDir (remotePathOf p v.path) ∨
        ∃ c, o = Op.stor (remotePathOf p v.path) c) ∧
      (∀ o ∈ opsOf p pre, o.isUpload = true) ∧
      ("error walking", e) ∈ errorLines (upload W fs p (Run.start w)).trace) ∧
    (∀ (w1 : σ),
      replicated W p (rootVisits p.LocalPath (fs p.LocalPath)) w = some w1 →
      remoteOps (upload W fs p (Run.start w)).trace
        = opsOf p (rootVisits p.LocalPath (fs p.LocalPath)) ++ [Op.quit] ∧
      (∀ o ∈ opsOf p (rootVisits p.LocalPath (fs p.LocalPath)), o.isUpload = true) ∧
      (upload W fs p (Run.start w)).world = (W.quit w1).2) := by
  constructor
  · intro pre post v w1 e hvs hpre hv
    have hrun := runVisits_of_replicated W p pre w w1 hpre
    rcases hst : runVisits (walkFn W p) pre (Run.start w) with ⟨r, st1⟩
    rw [hst] at hrun
    simp only at hrun
    rcases hrun with ⟨hr, hw1, hops1⟩
    subst hr
    have hfail := walkFn_of_stepFails W p v st1.world e (hw1 ▸ hv)
    have hopv := walkFn_ops_eq W p v st1.world
    have hwhole : runVisits (walkFn W p) (rootVisits p.LocalPath (fs p.LocalPath)) (Run.start w)
        = (some e, (walkFn W p v.path v.info v.err (Run.start st1.world)).2.after st1.trace) := by
      rw [hvs, runVisits_append, hst]
      simp only [runVisits]
      rw [walkFn_framed W p v.path v.info v.err st1]
      rcases hc : walkFn W p v.path v.info v.err (Run.start st1.world) with ⟨_ | e1, st2⟩
      · rw [hc] at hfail; simp at hfail
      · rw [hc] at hfail
        simp only [Option.some.injEq] at hfail
        subst hfail
        rfl
    refine ⟨?_, opOf_length p v, ?_, ?_, ?_⟩
    · rw [upload_ops, hwhole]
      simp [hopv, hops1]
    · intro o ho
      rcases walkFn_ops W p v.path v.info v.err st1.world with h | h | ⟨c, h⟩ <;>
        rw [hopv] at h <;> rw [h] at ho <;> simp at ho
      · exact Or.inl ho
      · exact Or.inr ⟨c, ho⟩
    · exact opsOf_isUpload p pre
    · rw [upload_eq, hwhole]
      simp only
      rcases hq : W.quit ((walkFn W p v.path v.info v.err (Run.start st1.world)).2.after
          st1.trace).world with ⟨_ | eq, w2⟩ <;> simp [errorLines]
  · intro w1 h
    have hrun := runVisits_of_replicated W p _ w w1 h
    rcases hst : runVisits (walkFn W p) (rootVisits p.LocalPath (fs p.LocalPath)) (Run.start w)
      with ⟨r, st1⟩
    rw [hst] at hrun
    simp only at hrun
    rcases hrun with ⟨hr, hw1, hops1⟩
    subst hr
    refine ⟨?_, opsOf_isUpload p _, ?_⟩
    · rw [upload_ops, hst, hops1]
    · rw [upload_eq, hst]
      simp only
      rcases hq : W.quit st1.world with ⟨_ | eq, w2⟩ <;> simp [← hw1, hq]

/-! ## Instances on the example server -/

theorem main_failure_isolation_witness :
    ftpServer.dial (dialAddr blogProject) 5 (mirrorProject ftpServer demoFs siteProject
        (Run.start demoServer)).world
      = (some "dial tcp: connection refused",
          (mirrorProject ftpServer demoFs siteProject (Run.start demoServer)).world) ∧
    (main ftpServer demoFs ⟨[siteProject, blogProject, docsProject]⟩ (Run.start demoServer)).world
      = (main ftpServer demoFs ⟨[siteProject, docsProject]⟩ (Run.start demoServer)).world :=
  ⟨by decide,
    ((main_failure_isolation ftpServer demoFs).2.2.1 siteProject blogProject docsProject
      demoServer "dial tcp: connection refused" (by decide)).1⟩

theorem wipe_dispatch_witness :
    deletionsSucceed ftpServer siteProject (listing demoServer.files ["www".toList]) demoServer
      = some demoServerWiped ∧
    remoteOps (mirrorProject ftpServer demoFs siteProject (Run.start demoServer)).trace =
      [Op.dial (dialAddr siteProject) 5,
        Op.login siteProject.Connection.Username siteProject.Connection.Password,
        Op.list siteProject.RemotePath]
      ++ (listing demoServer.files ["www".toList]).map (deleteOp siteProject)
      ++ remoteOps (upload ftpServer demoFs siteProject (Run.start demoServerWiped)).trace :=
  ⟨by decide,
    (wipe_dispatch ftpServer demoFs siteProject demoServer demoServer demoServer demoServer
      demoServerWiped (listing demoServer.files ["www".toList])
      (by decide) (by decide) (by decide) (by decide)).1⟩

theorem wipe_aborts_project_witness :
    deleteCall lockedImg siteProject ⟨"img".toList, EntryType.folder⟩ demoServer1
      = (some "refused", demoServer1) ∧
    remoteOps (mirrorProject lockedImg demoFs siteProject (Run.start demoServer)).trace =
      [Op.dial (dialAddr siteProject) 5,
        Op.login siteProject.Connection.Username siteProject.Connection.Password,
        Op.list siteProject.RemotePath,
        Op.delete "/www/old.txt".toList, Op.removeDirRecur "/www/img".toList] :=
  ⟨by decide,
    (wipe_aborts_project lockedImg demoFs siteProject demoServer demoServer demoServer demoServer
      demoServer1 demoServer1 [⟨"old.txt".toList, EntryType.file⟩]
      [⟨"robots.txt".toList, EntryType.file⟩] ⟨"img".toList, EntryType.folder⟩ "refused"
      (by decide) (by decide) (by decide) (by decide) (by decide)).1⟩

theorem upload_abort_then_quit_witness :
    ((rootVisits siteProject.LocalPath (demoFs siteProject.LocalPath)
        = [⟨"site".toList, demoTree, none⟩, ⟨"site/css".toList, demoCss, none⟩]
          ++ ⟨"site/css/a.css".toList, Node.file [7], none⟩
            :: [⟨"site/index.html".toList, Node.file [1, 2], none⟩]) ∧
      replicated lockedCss siteProject
        [⟨"site".toList, demoTree, none⟩, ⟨"site/css".toList, demoCss, none⟩] demoServerWiped
        = some demoServerCss ∧
      StepFails lockedCss siteProject ⟨"site/css/a.css".toList, Node.file [7], none⟩
        demoServerCss "refused" ∧
      replicated ftpServer siteProject
        (rootVisits siteProject.LocalPath (demoFs siteProject.LocalPath)) demoServerWiped
        = some (upload ftpServer demoFs siteProject (Run.start demoServerWiped)).world) ∧
    remoteOps (upload lockedCss demoFs siteProject (Run.start demoServerWiped)).trace
      = [Op.makeDir "/www/css".toList, Op.stor "/www/css/a.css".toList [7], Op.quit] ∧
    remoteOps (upload ftpServer demoFs siteProject (Run.start demoServerWiped)).trace
      = [Op.makeDir "/www/css".toList, Op.stor "/www/css/a.css".toList [7],
          Op.stor "/www/index.html".toList [1, 2], Op.quit] :=
  ⟨⟨rfl, by decide, StepFails.stor [7] rfl (by decide) rfl rfl (by decide), by decide⟩,
    ((upload_abort_then_quit lockedCss demoFs siteProject demoServerWiped).1
      [⟨"site".toList, demoTree, none⟩, ⟨"site/css".toList, demoCss, none⟩]
      [⟨"site/index.html".toList, Node.file [1, 2], none⟩]
      ⟨"site/css/a.css".toList, Node.file [7], none⟩ demoServerCss "refused" rfl (by decide)
      (StepFails.stor [7] rfl (by decide) rfl rfl (by decide))).1,
    ((upload_abort_then_quit ftpServer demoFs siteProject demoServerWiped).2
      (upload ftpServer demoFs siteProject (Run.start demoServerWiped)).world (by decide)).1⟩

/-! ## Sessions left open -/

/-- C4, evaluated.  On `demoServer` the connect succeeds, and when the login
fails (wrong password), when the listing fails (no such remote root) or when a
delete fails (`/www/img` refused), the project ends without a quit; in a run of
two projects the connect of the second follows at once. -/
theorem failed_project_never_quits :
    remoteOps (mirrorProject ftpServer demoFs wrongPassword (Run.start demoServer)).trace
      = [Op.dial "ftp.example.org:21".toList 5, Op.login "deploy".toList "wrong".toList] ∧
    remoteOps (mirrorProject ftpServer demoFs missingRoot (Run.start demoServer)).trace
      = [Op.dial "ftp.example.org:21".toList 5, Op.login "deploy".toList "secret".toList,
          Op.list "/nope".toList] ∧
    remoteOps (mirrorProject lockedImg demoFs siteProject (Run.start demoServer)).trace
      = [Op.dial "ftp.example.org:21".toList 5, Op.login "deploy".toList "secret".toList,
          Op.list "/www".toList, Op.delete "/www/old.txt".toList,
          Op.removeDirRecur "/www/img".toList] ∧
    (main ftpServer demoFs ⟨[wrongPassword, docsProject]⟩ (Run.start demoServer)).trace.take 4
      = [Event.call (Op.dial "ftp.example.org:21".toList 5) none,
          Event.call (Op.login "deploy".toList "wrong".toList) (some "530 Login incorrect"),
          Event.logError "connection error" "530 Login incorrect",
          Event.call (Op.dial "ftp.example.org:21".toList 5) none] := by
  decide

/-! ## Remote paths for a local root that is not in clean form -/

/-- C5, evaluated.  With the local root written `site/` the walk passes
`site/css`, `site/css/a.css` and `site/index.html`, and the operations target
`/wwwcss`, `/wwwcss/a.css` and `/wwwindex.html`; with the local root written
`./site` they target `/wwwsite/css` and so on: not the remote root, a
separator and the path relative to the local root. -/
theorem remote_path_of_unclean_root :
    remoteOps (upload ftpServer demoFs trailingSlash (Run.start demoServerWiped)).trace
      = [Op.makeDir "/wwwcss".toList, Op.stor "/wwwcss/a.css".toList [7],
          Op.stor "/wwwindex.html".toList [1, 2], Op.quit] ∧
    remoteOps (upload ftpServer demoFs dotSlash (Run.start demoServerWiped)).trace
      = [Op.makeDir "/wwwsite/css".toList, Op.quit] ∧
    remoteOps (upload ftpServer demoFs siteProject (Run.start demoServerWiped)).trace
      = [Op.makeDir "/www/css".toList, Op.stor "/www/css/a.css".toList [7],
          Op.stor "/www/index.html".toList [1, 2], Op.quit] := by
  decide

/-! ## The server model: paths and bindings -/

theorem splitElems_ne_nil (s : Str) : splitElems s ≠ [] := by
  cases s with
  | nil => simp [splitElems]
  | cons c cs =>
    simp only [splitElems]
    split
    · simp
    · split <;> simp

theorem splitElems_append_sep (a b : Str) :
    splitElems (a ++ sep :: b) = splitElems a ++ splitElems b := by
  induction a with
  | nil => simp [splitElems]
  | cons c cs ih =>
    simp only [List.cons_append, splitElems]
    split
    · simp [ih]
    · have ih1 : splitElems (cs.append (sep :: b)) = splitElems cs ++ splitElems b := ih
      rw [ih1]
      rcases h : splitElems cs with _ | ⟨e, es⟩
      · exact absurd h (splitElems_ne_nil cs)
      · simp

theorem splitElems_of_no_sep (n : Str) (h : sep ∉ n) : splitElems n = [n] := by
  induction n with
  | nil => rfl
  | cons c cs ih =>
    simp only [List.mem_cons, not_or] at h
    simp only [splitElems, ih h.2]
    rw [if_neg (fun hc => h.1 hc.symm)]

theorem parsePath_child (root name : Str) (h : ValidName name) :
    parsePath (root ++ sep :: name) = parsePath root ++ [name] := by
  simp [parsePath, splitElems_append_sep, splitElems_of_no_sep name h.2, h.1]

theorem mem_splitElems_no_sep (s : Str) : ∀ e ∈ splitElems s, sep ∉ e := by
  induction s with
  | nil => simp [splitElems]
  | cons c cs ih =>
    intro e he
    simp only [splitElems] at he
    split at he
    · simp only [List.mem_cons] at he
      rcases he with rfl | he
      · simp
      · exact ih e he
    · rename_i hc
      rcases h : splitElems cs with _ | ⟨e1, es⟩
      · exact absurd h (splitElems_ne_nil cs)
      · rw [h] at he ih
        simp only [List.mem_cons] at he
        rcases he with rfl | he
        · simp only [List.mem_cons, not_or]
          exact ⟨fun hh => hc hh.symm, ih e1 (by simp)⟩
        · exact ih e (by simp [he])

theorem parsePath_valid (s : Str) : ∀ n ∈ parsePath s, ValidName n := by
  intro n hn
  simp only [parsePath, List.mem_filter, decide_eq_true_eq] at hn
  exact ⟨hn.2, mem_splitElems_no_sep s n hn.1⟩

@[simp] theorem lookup_cons (k : RPath) (v : RNode) (files : List (RPath × RNode)) (q : RPath) :
    lookup ((k, v) :: files) q = if k = q then some v else lookup files q := rfl

theorem lookup_filter (P : RPath → Bool) (files : List (RPath × RNode)) (q : RPath) :
    lookup (files.filter (fun b => P b.1)) q = if P q then lookup files q else none := by
  induction files with
  | nil => simp [lookup]
  | cons b rest ih =>
    rcases b with ⟨k, v⟩
    by_cases hk : P k = true
    · simp only [List.filter_cons, hk, if_true, lookup_cons, ih]
      by_cases hkq : k = q
      · subst hkq; simp [hk]
      · simp [hkq]
    · simp only [List.filter_cons, hk, lookup_cons]
      by_cases hkq : k = q
      · subst hkq; simp [hk, ih]
      · simp [hkq, ih]

theorem lookup_isSome_of_mem (files : List (RPath × RNode)) (b : RPath × RNode) (h : b ∈ files) :
    lookup files b.1 ≠ none := by
  induction files with
  | nil => simp at h
  | cons c rest ih =>
    rcases c with ⟨k, v⟩
    simp only [lookup_cons]
    by_cases hk : k = b.1
    · simp [hk]
    · simp only [hk, if_false]
      simp only [List.mem_cons] at h
      rcases h with rfl | h
      · exact absurd rfl hk
      · exact ih h

theorem mem_of_lookup (files : List (RPath × RNode)) (q : RPath) (v : RNode)
    (h : lookup files q = some v) : (q, v) ∈ files := by
  induction files with
  | nil => simp [lookup] at h
  | cons c rest ih =>
    rcases c with ⟨k, w⟩
    simp only [lookup_cons] at h
    by_cases hk : k = q
    · simp only [hk, if_true, Option.some.injEq] at h
      simp [hk, h]
    · simp only [hk, if_false] at h
      exact List.mem_cons_of_mem _ (ih h)

/-! ## The server model: listing and wipe -/

theorem childName_eq_some (d k : RPath) (n : Str) : childName d k = some n ↔ k = d ++ [n] := by
  unfold childName
  constructor
  · intro h
    split at h
    · rename_i hk
      have := List.dropLast_append_getLast? n (by simpa using h)
      rw [hk.2] at this
      exact this.symm
    · simp at h
  · rintro rfl
    simp [List.dropLast_concat, List.getLast?_concat]

theorem removes_imp_prefix (r : RPath) (e : Entry) (k : RPath) (h : removes r e k = true) :
    r ++ [e.Name] <+: k := by
  unfold removes at h
  split at h
  · simp only [decide_eq_true_eq] at h
    rw [h]
  · simpa using h

theorem not_removes_sibling (r : RPath) (e : Entry) (n : Str) (h : n ≠ e.Name) :
    removes r e (r ++ [n]) = false := by
  unfold removes
  split
  · simp [h]
  · simp only [decide_eq_false_iff_not, List.prefix_append_right_inj]
    intro hp
    have := hp.eq_of_length (by simp)
    simp at this
    exact h this.symm

theorem model_deleteCall (s : Server) (p : Project) (e : Entry)
    (h : Listed s.files (parsePath p.RemotePath) e) :
    deleteCall ftpServer p e s =
      (none, { s with
        files := List.filter (fun b => !removes (parsePath p.RemotePath) e b.1) s.files }) := by
  rcases h with ⟨hn, ⟨ht, c, hl⟩ | ⟨ht, hl⟩⟩
  · have hp := parsePath_child p.RemotePath e.Name hn
    simp only [sep] at hp
    simp only [deleteCall, ht, ftpServer, hp, hl]
    congr 2
    apply List.filter_congr
    intro b _
    simp [removes, ht]
  · have hp := parsePath_child p.RemotePath e.Name hn
    simp only [sep] at hp
    have : deleteCall ftpServer p e s
        = ftpServer.removeDirRecur (p.RemotePath ++ '/' :: e.Name) s := by
      cases hty : e.type
      · exact absurd hty ht
      · simp [deleteCall, hty]
      · simp [deleteCall, hty]
    rw [this]
    simp only [ftpServer, hp, hl]
    congr 2
    apply List.filter_congr
    intro b _
    simp [removes, ht]

theorem model_deletions (p : Project) (es : List Entry) (s : Server)
    (hnd : (es.map (fun e => e.Name)).Nodup)
    (hes : ∀ e ∈ es, Listed s.files (parsePath p.RemotePath) e) :
    deletionsSucceed ftpServer p es s
      = some { s with files := wiped s.files (parsePath p.RemotePath) es } := by
  induction es generalizing s with
  | nil => simp [deletionsSucceed, wiped]
  | cons e es ih =>
    simp only [List.map_cons, List.nodup_cons, List.mem_map, not_exists, not_and] at hnd
    simp only [deletionsSucceed, model_deleteCall s p e (hes e (by simp))]
    rw [ih _ hnd.2]
    · simp only [wiped, List.filter_filter, List.all_cons]
      congr 2
      apply List.filter_congr
      intro b _
      simp [Bool.and_comm]
    · intro e1 he1
      have h1 := hes e1 (by simp [he1])
      have hne : e1.Name ≠ e.Name := fun h => hnd.1 e1 he1 h
      have hl : lookup (s.files.filter (fun b => !removes (parsePath p.RemotePath) e b.1))
          (parsePath p.RemotePath ++ [e1.Name])
          = lookup s.files (parsePath p.RemotePath ++ [e1.Name]) := by
        rw [lookup_filter (fun k => !removes (parsePath p.RemotePath) e k)]
        simp [not_removes_sibling _ e e1.Name hne]
      simpa only [Listed, hl] using h1

theorem below_iff (d q : RPath) : Below d q ↔ ∃ n rest, q = d ++ n :: rest := by
  constructor
  · rintro ⟨⟨t, rfl⟩, hne⟩
    cases t with
    | nil => simp at hne
    | cons n rest => exact ⟨n, rest, rfl⟩
  · rintro ⟨n, rest, rfl⟩
    exact ⟨List.prefix_append _ _, by simp⟩

theorem listing_names_nodup (files : List (RPath × RNode)) (r : RPath) :
    ((listing files r).map (fun e => e.Name)).Nodup := by
  have : ∀ l : List Str, (l.map (entryAt files r)).map (fun e => e.Name) = l := by
    intro l
    induction l with
    | nil => rfl
    | cons a l ih => simp [entryAt, ih]
  rw [listing, this]
  exact List.nodup_dedup _

theorem listing_listed (files : List (RPath × RNode)) (r : RPath) (hWF : WellFormed files)
    (e : Entry) (he : e ∈ listing files r) : Listed files r e := by
  simp only [listing, List.mem_map, List.mem_dedup, List.mem_filterMap] at he
  rcases he with ⟨n, ⟨b, hb, hc⟩, rfl⟩
  have hk := (childName_eq_some r b.1 n).1 hc
  have hv : ValidName n := (hWF b hb).2.1 n (by rw [hk]; simp)
  have hl := lookup_isSome_of_mem files b hb
  rw [hk] at hl
  refine ⟨hv, ?_⟩
  rcases hlk : lookup files (r ++ [n]) with _ | v
  · exact absurd hlk hl
  · cases v with
    | file c => left; exact ⟨by simp [entryAt, hlk], c, hlk⟩
    | dir => right; exact ⟨by simp [entryAt, hlk], hlk⟩

theorem listing_complete (files : List (RPath × RNode)) (r : RPath) (n : Str)
    (h : lookup files (r ++ [n]) ≠ none) : ∃ e ∈ listing files r, e.Name = n := by
  rcases hl : lookup files (r ++ [n]) with _ | v
  · exact absurd hl h
  · have hm := mem_of_lookup files _ v hl
    refine ⟨entryAt files r n, ?_, rfl⟩
    simp only [listing, List.mem_map, List.mem_dedup, List.mem_filterMap]
    exact ⟨n, ⟨(r ++ [n], v), hm, (childName_eq_some r _ n).2 rfl⟩, rfl⟩

theorem wf_ancestor (files : List (RPath × RNode)) (hWF : WellFormed files) (r : RPath)
    (n : Str) (rest : List Str) (h : lookup files (r ++ n :: rest) ≠ none) :
    lookup files (r ++ [n]) ≠ none ∧ (rest ≠ [] → lookup files (r ++ [n]) = some RNode.dir) := by
  induction rest using List.reverseRecOn with
  | nil => exact ⟨h, fun hh => absurd rfl hh⟩
  | append_singleton rest x ih =>
    rcases hl : lookup files (r ++ n :: (rest ++ [x])) with _ | v
    · exact absurd hl h
    · have hm := mem_of_lookup files _ v hl
      have hd := (hWF _ hm).2.2
      have hdl : (r ++ n :: (rest ++ [x])).dropLast = r ++ n :: rest := by
        rw [show r ++ n :: (rest ++ [x]) = (r ++ n :: rest) ++ [x] by simp,
          List.dropLast_concat]
      simp only [hdl, isDirAt, Bool.or_eq_true, decide_eq_true_eq] at hd
      have hdir : lookup files (r ++ n :: rest) = some RNode.dir := by
        rcases hd with hd | hd
        · simp at hd
        · exact hd
      by_cases hr : rest = []
      · subst hr
        exact ⟨by simp [hdir], fun _ => hdir⟩
      · have := ih (by simp [hdir])
        exact ⟨this.1, fun _ => this.2 hr⟩

theorem wiped_lookup (files : List (RPath × RNode)) (r : RPath) (hWF : WellFormed files)
    (q : RPath) :
    lookup (wiped files r (listing files r)) q = if Below r q then none else lookup files q := by
  rw [wiped, lookup_filter (fun k => (listing files r).all (fun e => !removes r e k))]
  by_cases hb : Below r q
  · simp only [hb, if_true]
    split
    · rename_i hall
      rcases (below_iff r q).1 hb with ⟨n, rest, rfl⟩
      by_contra hne
      have ha := wf_ancestor files hWF r n rest hne
      rcases listing_complete files r n ha.1 with ⟨e, he, hen⟩
      have hnot := List.all_eq_true.1 hall e he
      have hlisted := listing_listed files r hWF e he
      apply absurd hnot
      simp only [Bool.not_eq_true', Bool.not_eq_false]
      unfold removes
      rcases hlisted with ⟨_, ⟨ht, c, hl⟩ | ⟨ht, hl⟩⟩
      · have hrest : rest = [] := by
          by_contra hr
          have := ha.2 hr
          rw [← hen, hl] at this
          simp at this
        simp [ht, hrest, hen]
      · simp [ht, hen]
    · rfl
  · simp only [hb, if_false]
    rw [if_pos]
    apply List.all_eq_true.2
    intro e _
    simp only [Bool.not_eq_true', Bool.not_eq_false]
    by_contra hrem
    simp only [Bool.not_eq_false] at hrem
    have hp := removes_imp_prefix r e q hrem
    apply hb
    rcases hp with ⟨t, rfl⟩
    exact (below_iff r _).2 ⟨e.Name, t, by simp⟩

theorem wiped_wf (files : List (RPath × RNode)) (r : RPath) (hWF : WellFormed files) :
    WellFormed (wiped files r (listing files r)) := by
  intro b hb
  have hbf : b ∈ files := (List.mem_filter.1 hb).1
  refine ⟨(hWF b hbf).1, (hWF b hbf).2.1, ?_⟩
  have hd := (hWF b hbf).2.2
  simp only [isDirAt, Bool.or_eq_true, decide_eq_true_eq] at hd ⊢
  rcases hd with hd | hd
  · exact Or.inl hd
  · right
    rw [wiped_lookup files r hWF, if_neg, hd]
    intro hbel
    have hlk := lookup_isSome_of_mem _ b hb
    rw [wiped_lookup files r hWF, if_pos] at hlk
    · exact hlk rfl
    · refine ⟨hbel.1.trans (List.dropLast_prefix _), ?_⟩
      intro heq
      have := hbel.1
      rw [← heq] at this
      have hlen := this.length_le
      have hne := (hWF b hbf).1
      rw [List.length_dropLast] at hlen
      have : 0 < b.1.length := List.length_pos.2 hne
      omega

/-! ## The server model: a successful project -/

theorem stepsSucceeded_okCalls (oks rest : List Event)
    (h : ∀ ev ∈ oks, ∃ op, ev = Event.call op none ∧ op ≠ Op.quit) :
    stepsSucceeded (oks ++ rest) = stepsSucceeded rest := by
  induction oks with
  | nil => rfl
  | cons ev oks ih =>
    rcases h ev (by simp) with ⟨op, rfl, hop⟩
    have := ih (fun ev hev => h ev (by simp [hev]))
    cases op <;> simp_all [stepsSucceeded]

theorem stepsSucceeded_logError (tr rest : List Event) (m : String) (e : Error)
    (h : ∀ o ∈ remoteOps tr, o ≠ Op.quit) :
    stepsSucceeded (tr ++ Event.logError m e :: rest) = false := by
  induction tr with
  | nil => rfl
  | cons ev tr ih =>
    cases ev with
    | logError m1 e1 => rfl
    | call op err =>
      have hop : op ≠ Op.quit := h op (by simp [remoteOps])
      have := ih (fun o ho => h o (by simp [remoteOps, ho]))
      cases err with
      | some e1 => cases op <;> simp_all [stepsSucceeded]
      | none => cases op <;> simp_all [stepsSucceeded]

theorem wf_cons (files : List (RPath × RNode)) (k : RPath) (v : RNode)
    (hWF : WellFormed files) (hk : k ≠ []) (hvalid : ∀ n ∈ k, ValidName n)
    (hparent : isDirAt files k.dropLast = true)
    (hcompat : v = RNode.dir ∨ lookup files k ≠ some RNode.dir) :
    WellFormed ((k, v) :: files) := by
  have hne : k ≠ k.dropLast := by
    intro h
    have := congrArg List.length h
    rw [List.length_dropLast] at this
    have : 0 < k.length := List.length_pos.2 hk
    omega
  intro b hb
  simp only [List.mem_cons] at hb
  rcases hb with rfl | hb
  · refine ⟨hk, hvalid, ?_⟩
    simp only [isDirAt, Bool.or_eq_true, decide_eq_true_eq, lookup_cons, if_neg hne] at hparent ⊢
    exact hparent
  · refine ⟨(hWF b hb).1, (hWF b hb).2.1, ?_⟩
    have hd := (hWF b hb).2.2
    simp only [isDirAt, Bool.or_eq_true, decide_eq_true_eq, lookup_cons] at hd ⊢
    rcases hd with hd | hd
    · exact Or.inl hd
    · right
      by_cases hkd : k = b.1.dropLast
      · rw [if_pos hkd]
        rcases hcompat with rfl | hc
        · rfl
        · exact absurd (hkd ▸ hd) hc
      · rw [if_neg hkd]
        exact hd

theorem model_makeDir (s : Server) (path : Str) :
    ftpServer.makeDir path s =
      if parsePath path ≠ [] ∧ lookup s.files (parsePath path) = none
          ∧ isDirAt s.files (parsePath path).dropLast = true then
        (none, { s with files := (parsePath path, RNode.dir) :: s.files })
      else (some "550 Create directory operation failed", s) := rfl

theorem model_stor (s : Server) (path : Str) (c : Bytes) :
    ftpServer.stor path c s =
      if parsePath path ≠ [] ∧ lookup s.files (parsePath path) ≠ some RNode.dir
          ∧ isDirAt s.files (parsePath path).dropLast = true then
        (none, { s with files := (parsePath path, RNode.file c) :: s.files })
      else (some "553 Could not create file", s) := rfl

theorem model_walkFn (p : Project) (v : Visit) (st st1 : Run Server)
    (h : walkFn ftpServer p v.path v.info v.err st = (none, st1)) :
    st1.world = { st.world with files := writeOf p v ++ st.world.files } ∧
    (WellFormed st.world.files → WellFormed st1.world.files) := by
  rcases v with ⟨path, info, err⟩
  cases err with
  | some e => simp [walkFn] at h
  | none =>
    simp only [walkFn] at h
    simp only [writeOf]
    by_cases hp : path = p.LocalPath
    · simp only [hp, if_true, Prod.mk.injEq, true_and] at h
      subst h
      simp [hp]
    · simp only [hp, if_false] at h
      by_cases hdir : info.isDir = true
      · simp only [hdir, if_true, model_makeDir] at h
        by_cases hcond : parsePath (p.RemotePath ++ trimPrefix path p.LocalPath) ≠ [] ∧
            lookup st.world.files (parsePath (p.RemotePath ++ trimPrefix path p.LocalPath)) = none
            ∧ isDirAt st.world.files
              (parsePath (p.RemotePath ++ trimPrefix path p.LocalPath)).dropLast = true
        · simp only [if_pos hcond, Run.call, Prod.mk.injEq, true_and] at h
          subst h
          simp only [hp, hdir, if_false, if_true, List.singleton_append, remotePathOf, true_and]
          intro hWF
          exact wf_cons _ _ _ hWF hcond.1 (parsePath_valid _) hcond.2.2 (Or.inl rfl)
        · simp [if_neg hcond, Run.call, Run.log] at h
      · simp only [hdir, Bool.false_eq_true, if_false] at h
        cases ho : info.open with
        | error e => simp [ho] at h
        | ok c =>
          simp only [ho, model_stor] at h
          by_cases hcond : parsePath (p.RemotePath ++ trimPrefix path p.LocalPath) ≠ [] ∧
              lookup st.world.files (parsePath (p.RemotePath ++ trimPrefix path p.LocalPath))
                ≠ some RNode.dir
              ∧ isDirAt st.world.files
                (parsePath (p.RemotePath ++ trimPrefix path p.LocalPath)).dropLast = true
          · simp only [if_pos hcond, Run.call, Prod.mk.injEq, true_and] at h
            subst h
            simp only [hp, hdir, ho, Bool.false_eq_true, if_false, List.singleton_append,
              remotePathOf, true_and]
            intro hWF
            exact wf_cons _ _ _ hWF hcond.1 (parsePath_valid _) hcond.2.2 (Or.inr hcond.2.1)
          · simp [if_neg hcond, Run.call, Run.log] at h

theorem model_runVisits (p : Project) (vs : List Visit) (st st1 : Run Server)
    (h : runVisits (walkFn ftpServer p) vs st = (none, st1)) :
    st1.world = { st.world with files := writesOf p vs ++ st.world.files } ∧
    (WellFormed st.world.files → WellFormed st1.world.files) := by
  induction vs generalizing st with
  | nil =>
    simp only [runVisits, Prod.mk.injEq, true_and] at h
    subst h
    simp [writesOf]
  | cons v vs ih =>
    simp only [runVisits] at h
    rcases hv : walkFn ftpServer p v.path v.info v.err st with ⟨_ | e, st2⟩
    · rw [hv] at h
      simp only at h
      have h1 := model_walkFn p v st st2 hv
      have h2 := ih st2 h
      refine ⟨?_, fun hWF => h2.2 (h1.2 hWF)⟩
      rw [h2.1, h1.1]
      simp [writesOf]
    · rw [hv] at h
      simp at h

theorem lookup_append (a b : List (RPath × RNode)) (q : RPath) :
    lookup (a ++ b) q = match lookup a q with
      | some v => some v
      | none => lookup b q := by
  induction a with
  | nil => rfl
  | cons c a ih =>
    rcases c with ⟨k, v⟩
    simp only [List.cons_append, lookup_cons]
    by_cases hk : k = q
    · simp [hk]
    · simp [hk, ih]

theorem deleteOp_ne_quit (p : Project) (e : Entry) : deleteOp p e ≠ Op.quit := by
  cases ht : e.type <;> simp [deleteOp, ht]

theorem model_wipe (s : Server) (p : Project) (hWF : WellFormed s.files) :
    wipe ftpServer p (listing s.files (parsePath p.RemotePath)) (Run.start s) =
      (none, ⟨wipedServer s p,
        (listing s.files (parsePath p.RemotePath)).map (deleteEvent p none)⟩) :=
  wipe_succeeds ftpServer p _ s _
    (model_deletions p _ s (listing_names_nodup _ _)
      (fun e he => listing_listed _ _ hWF e he))

/-- On the server model, a project whose steps before the quit succeeded: the
connect, the login and the listing were accepted, every call of the walk
function returned no error from the wiped files, and the files at the end are
the writes of the walk on top of the wiped files. -/
theorem model_mirror (s : Server) (fs : Str → Node) (p : Project) (hWF : WellFormed s.files)
    (hs : stepsSucceeded (mirrorProject ftpServer fs p (Run.start s)).trace = true) :
    isDirAt s.files (parsePath p.RemotePath) = true ∧
    (∃ st1, runVisits (walkFn ftpServer p) (rootVisits p.LocalPath (fs p.LocalPath))
        (Run.start (wipedServer s p)) = (none, st1)) ∧
    (mirrorProject ftpServer fs p (Run.start s)).world =
      { wipedServer s p with
        files := writesOf p (rootVisits p.LocalPath (fs p.LocalPath)) ++ (wipedServer s p).files } := by
  by_cases hd : dialAddr p = s.addr
  · have hdial : ftpServer.dial (dialAddr p) 5 (Run.start s).world = (none, s) := by
      simp [ftpServer, hd]
    by_cases hl : p.Connection.Username = s.user ∧ p.Connection.Password = s.password
    · have hlogin : ftpServer.login p.Connection.Username p.Connection.Password s = (none, s) := by
        simp [ftpServer, hl]
      by_cases hr : isDirAt s.files (parsePath p.RemotePath) = true
      · have hlist : ftpServer.list p.RemotePath s
            = ((listing s.files (parsePath p.RemotePath), none), s) := by
          simp [ftpServer, hr]
        rw [mirrorProject_listed ftpServer fs p (Run.start s) _ s s s hdial hlogin hlist,
          wipe_framed ftpServer p _ ⟨s, _⟩] at hs ⊢
        simp only [Run.start_world, model_wipe s p hWF] at hs ⊢
        rw [upload_framed ftpServer fs p (Run.after _ _)] at hs ⊢
        simp only [Run.after_world, Run.after_trace, Run.start_trace, List.nil_append,
          List.append_assoc] at hs ⊢
        rw [stepsSucceeded_okCalls, stepsSucceeded_okCalls, upload_eq] at hs
        · rw [upload_eq]
          rcases hrv : runVisits (walkFn ftpServer p) (rootVisits p.LocalPath (fs p.LocalPath))
              (Run.start (wipedServer s p)) with ⟨_ | e, st1⟩
          · have hm := (model_runVisits p _ _ st1 hrv).1
            refine ⟨hr, ⟨st1, rfl⟩, ?_⟩
            have hq : ftpServer.quit st1.world = (if st1.world.graceful then (none, st1.world)
                else (some "EOF", st1.world)) := rfl
            simp only [hq]
            by_cases hg : st1.world.graceful = true
            · simpa [hg] using hm
            · simpa [hg] using hm
          · rw [hrv] at hs
            have hnq : ∀ o ∈ remoteOps st1.trace, o ≠ Op.quit := by
              intro o ho
              have := runVisits_ops_isUpload ftpServer p
                (rootVisits p.LocalPath (fs p.LocalPath)) _ o (by rw [hrv]; exact ho)
              intro hq
              rw [hq] at this
              simp [Op.isUpload] at this
            have hq : ftpServer.quit st1.world = (if st1.world.graceful then (none, st1.world)
                else (some "EOF", st1.world)) := rfl
            simp only [hq] at hs
            by_cases hg : st1.world.graceful = true
            · simp [hg, stepsSucceeded_logError _ _ _ _ hnq] at hs
            · simp [hg, stepsSucceeded_logError _ _ _ _ hnq] at hs
        · intro ev hev
          simp only [List.mem_map] at hev
          rcases hev with ⟨e, _, rfl⟩
          exact ⟨deleteOp p e, rfl, deleteOp_ne_quit p e⟩
        · intro ev hev
          simp only [List.mem_cons, List.mem_singleton, List.not_mem_nil, or_false] at hev
          rcases hev with rfl | rfl | rfl
          · exact ⟨_, rfl, by simp⟩
          · exact ⟨_, rfl, by simp⟩
          · exact ⟨_, rfl, by simp⟩
      · have hlist : ftpServer.list p.RemotePath s
            = (([], some "550 No such directory"), s) := by
          simp [ftpServer, hr]
        rw [mirrorProject_list_failed ftpServer fs p (Run.start s) _ _ s s s hdial hlogin hlist]
          at hs
        simp [stepsSucceeded] at hs
    · have hlogin : ftpServer.login p.Connection.Username p.Connection.Password s
          = (some "530 Login incorrect", s) := by
        simp only [ftpServer]
        rw [if_neg hl]
      rw [mirrorProject_login_failed ftpServer fs p (Run.start s) _ s s hdial hlogin] at hs
      simp [stepsSucceeded] at hs
  · have hdial : ftpServer.dial (dialAddr p) 5 (Run.start s).world
        = (some "dial tcp: connection refused", s) := by
      simp [ftpServer, hd]
    rw [mirrorProject_dial_failed ftpServer fs p (Run.start s) _ s hdial] at hs
    simp [stepsSucceeded] at hs

/-! ## Idempotence -/

theorem model_mirror_wf (s : Server) (fs : Str → Node) (p : Project) (hWF : WellFormed s.files)
    (hs : stepsSucceeded (mirrorProject ftpServer fs p (Run.start s)).trace = true) :
    WellFormed (mirrorProject ftpServer fs p (Run.start s)).world.files := by
  rcases model_mirror s fs p hWF hs with ⟨_, ⟨st1, hrv⟩, hw⟩
  have h := model_runVisits p _ _ st1 hrv
  rw [hw]
  have h2 := h.2 (wiped_wf s.files (parsePath p.RemotePath) hWF)
  rw [h.1] at h2
  exact h2

/-- C8 (idempotence of a successful run).  On the server model, from any
well-formed remote state: if the steps of a project succeed in a first run and
succeed again in a second run over the same local tree, the remote state after
the second run is the remote state after the first. -/
theorem mirror_idempotent (s : Server) (fs : Str → Node) (p : Project)
    (hWF : WellFormed s.files)
    (h1 : stepsSucceeded (mirrorProject ftpServer fs p (Run.start s)).trace = true)
    (h2 : stepsSucceeded (mirrorProject ftpServer fs p
      (Run.start (mirrorProject ftpServer fs p (Run.start s)).world)).trace = true) :
    SameState
      (mirrorProject ftpServer fs p
        (Run.start (mirrorProject ftpServer fs p (Run.start s)).world)).world
      (mirrorProject ftpServer fs p (Run.start s)).world := by
  have hWF1 := model_mirror_wf s fs p hWF h1
  have hw2 := (model_mirror _ fs p hWF1 h2).2.2
  have hw1 := (model_mirror s fs p hWF h1).2.2
  rw [hw2]
  generalize hS1 : (mirrorProject ftpServer fs p (Run.start s)).world = s1 at hWF1 hw1
  refine ⟨rfl, rfl, rfl, rfl, ?_⟩
  intro q
  simp only [wipedServer, lookup_append]
  rcases hwr : lookup (writesOf p (rootVisits p.LocalPath (fs p.LocalPath))) q with _ | v
  · simp only
    rw [wiped_lookup s1.files _ hWF1]
    have hq1 : lookup s1.files q
        = lookup (wiped s.files (parsePath p.RemotePath)
            (listing s.files (parsePath p.RemotePath))) q := by
      rw [hw1]
      simp [wipedServer, lookup_append, hwr]
    by_cases hb : Below (parsePath p.RemotePath) q
    · rw [if_pos hb, hq1, wiped_lookup s.files _ hWF, if_pos hb]
    · rw [if_neg hb]
  · rw [hw1]
    simp [wipedServer, lookup_append, hwr]

/-! ## The empty tree -/

theorem listing_eq_nil (files : List (RPath × RNode)) (d : RPath)
    (h : ∀ b ∈ files, childName d b.1 = none) : listing files d = [] := by
  have : files.filterMap (fun b => childName d b.1) = [] :=
    List.filterMap_eq_nil_iff.2 (fun b hb => h b hb)
  simp [listing, this]

/-- C10 as amended (empty tree).  When the local root is an empty directory and
the connect, the login, the listing and every delete operation succeed, the
project issues the connect, the login, the listing, the delete operations and
the quit, no create-directory and no store, and the only error line it can
write is the one for a failed quit.  On the server model, from a well-formed
state, the remote root is then an empty directory. -/
theorem empty_tree (W : Client σ) (fs : Str → Node) (p : Project)
    (hempty : fs p.LocalPath = Node.dir Forest.nil) :
    (∀ (w w1 w2 w3 w4 : σ) (l : List Entry),
      W.dial (dialAddr p) 5 w = (none, w1) →
      W.login p.Connection.Username p.Connection.Password w1 = (none, w2) →
      W.list p.RemotePath w2 = ((l, none), w3) →
      deletionsSucceed W p l w3 = some w4 →
      remoteOps (mirrorProject W fs p (Run.start w)).trace =
          [Op.dial (dialAddr p) 5, Op.login p.Connection.Username p.Connection.Password,
            Op.list p.RemotePath] ++ l.map (deleteOp p) ++ [Op.quit] ∧
      errorLines (mirrorProject W fs p (Run.start w)).trace =
          (match (W.quit w4).1 with
            | some e => [("error walking", e)]
            | none => [])) ∧
    (∀ s : Server, WellFormed s.files →
      stepsSucceeded (mirrorProject ftpServer fs p (Run.start s)).trace = true →
      listing (mirrorProject ftpServer fs p (Run.start s)).world.files
          (parsePath p.RemotePath) = [] ∧
      isDirAt (mirrorProject ftpServer fs p (Run.start s)).world.files
          (parsePath p.RemotePath) = true) := by
  have hvis : rootVisits p.LocalPath (fs p.LocalPath)
      = [⟨p.LocalPath, Node.dir Forest.nil, none⟩] := by
    rw [hempty]
    simp [rootVisits, walkVisits, namesVisits]
  constructor
  · intro w w1 w2 w3 w4 l hd hl hls hdel
    rw [mirrorProject_listed W fs p (Run.start w) l w1 w2 w3 hd hl hls,
      wipe_framed W p l ⟨w3, _⟩]
    simp only [Run.start_world, wipe_succeeds W p l w3 w4 hdel]
    rw [upload_framed W fs p (Run.after _ _)]
    simp only [Run.after_world, Run.after_trace, Run.start_trace, List.nil_append,
      upload_eq, hvis, runVisits, walkFn, if_true]
    rcases hq : W.quit (Run.start w4).world with ⟨_ | e, w5⟩
    · simp only [Run.start_world] at hq
      simp [hq, remoteOps, errorLines, remoteOps_deleteEvents, errorLines_deleteEvents]
    · simp only [Run.start_world] at hq
      simp [hq, remoteOps, errorLines, remoteOps_deleteEvents, errorLines_deleteEvents]
  · intro s hWF hs
    rcases model_mirror s fs p hWF hs with ⟨hdir, _, hw⟩
    rw [hw, hvis]
    simp only [writesOf, writeOf, if_true, List.append_nil, List.nil_append, wipedServer]
    constructor
    · have hnone : ∀ b ∈ wiped s.files (parsePath p.RemotePath)
          (listing s.files (parsePath p.RemotePath)),
          childName (parsePath p.RemotePath) b.1 = none := by
        intro b hb
        rcases hc : childName (parsePath p.RemotePath) b.1 with _ | n
        · rfl
        · exfalso
          have hk := (childName_eq_some _ _ _).1 hc
          have hl := lookup_isSome_of_mem _ b hb
          rw [wiped_lookup s.files _ hWF, if_pos] at hl
          · exact hl rfl
          · exact (below_iff _ _).2 ⟨n, [], hk⟩
      exact listing_eq_nil _ _ hnone
    · simp only [isDirAt, Bool.or_eq_true, decide_eq_true_eq] at hdir ⊢
      rcases hdir with hdir | hdir
      · exact Or.inl hdir
      · right
        rw [wiped_lookup s.files _ hWF, if_neg (fun hb => hb.2 rfl)]
        exact hdir

theorem mirror_idempotent_witness :
    (WellFormed demoServer.files ∧
      stepsSucceeded (mirrorProject ftpServer demoFs siteProject (Run.start demoServer)).trace
        = true) ∧
    SameState
      (mirrorProject ftpServer demoFs siteProject
        (Run.start (mirrorProject ftpServer demoFs siteProject (Run.start demoServer)).world)).world
      (mirrorProject ftpServer demoFs siteProject (Run.start demoServer)).world :=
  ⟨⟨by decide, by decide⟩,
    mirror_idempotent demoServer demoFs siteProject (by decide) (by decide) (by decide)⟩

theorem empty_tree_witness :
    (emptyFs siteProject.LocalPath = Node.dir Forest.nil ∧
      deletionsSucceed ftpServer siteProject (listing demoServer.files ["www".toList]) demoServer
        = some demoServerWiped) ∧
    (remoteOps (mirrorProject ftpServer emptyFs siteProject (Run.start demoServer)).trace =
        [Op.dial (dialAddr siteProject) 5,
          Op.login siteProject.Connection.Username siteProject.Connection.Password,
          Op.list siteProject.RemotePath]
        ++ (listing demoServer.files ["www".toList]).map (deleteOp siteProject) ++ [Op.quit] ∧
      errorLines (mirrorProject ftpServer emptyFs siteProject (Run.start demoServer)).trace =
        (match (ftpServer.quit demoServerWiped).1 with
          | some e => [("error walking", e)]
          | none => [])) ∧
    (listing (mirrorProject ftpServer emptyFs siteProject (Run.start demoServer)).world.files
        (parsePath siteProject.RemotePath) = [] ∧
      isDirAt (mirrorProject ftpServer emptyFs siteProject (Run.start demoServer)).world.files
        (parsePath siteProject.RemotePath) = true) :=
  ⟨⟨rfl, by decide⟩,
    (empty_tree ftpServer emptyFs siteProject rfl).1 demoServer demoServer demoServer demoServer
      demoServerWiped (listing demoServer.files ["www".toList])
      (by decide) (by decide) (by decide) (by decide),
    (empty_tree ftpServer emptyFs siteProject rfl).2 demoServer (by decide) (by decide)⟩

/-- C10 as stated fails when the quit fails.  On `abruptServer` the listing of
`/www` is not empty, every delete operation succeeds and the local root is an
empty directory; no create-directory and no store is issued, and the project
writes the error line of the failed quit. -/
theorem empty_tree_reports_quit_error :
    listing abruptServer.files ["www".toList] ≠ [] ∧
    (deletionsSucceed ftpServer siteProject (listing abruptServer.files ["www".toList])
      abruptServer).isSome = true ∧
    emptyFs siteProject.LocalPath = Node.dir Forest.nil ∧
    remoteOps (mirrorProject ftpServer emptyFs siteProject (Run.start abruptServer)).trace =
      [Op.dial "ftp.example.org:21".toList 5, Op.login "deploy".toList "secret".toList,
        Op.list "/www".toList, Op.delete "/www/old.txt".toList,
        Op.removeDirRecur "/www/img".toList, Op.delete "/www/robots.txt".toList, Op.quit] ∧
    errorLines (mirrorProject ftpServer emptyFs siteProject (Run.start abruptServer)).trace
      = [("error walking", "EOF")] :=
  ⟨by decide, by decide, rfl, by decide, by decide⟩

/-! ## Order and fidelity for a local root that is not in clean form -/

/-- C6, evaluated.  With the local root written `site/` every step of the
project succeeds on `demoServer`, and the first operation of the walk is the
create-directory of `/wwwcss`, whose parent is neither the remote root `/www`
nor a directory created before: the sequence of the walk is not parent before
child.  With the local root written `site` it is. -/
theorem unclean_root_breaks_parent_before_child :
    stepsSucceeded (mirrorProject ftpServer demoFs trailingSlash (Run.start demoServer)).trace
      = true ∧
    (remoteOps (upload ftpServer demoFs trailingSlash (Run.start demoServerWiped)).trace).head?
      = some (Op.makeDir "/wwwcss".toList) ∧
    parentPath "/wwwcss".toList = [] ∧
    parentBeforeChild trailingSlash.RemotePath
      (remoteOps (upload ftpServer demoFs trailingSlash (Run.start demoServerWiped)).trace) []
      = false ∧
    parentBeforeChild siteProject.RemotePath
      (remoteOps (upload ftpServer demoFs siteProject (Run.start demoServerWiped)).trace) []
      = true := by
  decide

/-- C2, evaluated.  With the local root written `site/` every step of the
project succeeds on `demoServer` (the remote root `/www` exists), and afterwards
nothing is stored below `/www`, while `index.html` is stored as
`/wwwindex.html` beside it: the remote root does not mirror the local tree.
With the local root written `site` the file is at `/www/index.html`. -/
theorem unclean_root_breaks_fidelity :
    isDirAt demoServer.files (parsePath trailingSlash.RemotePath) = true ∧
    stepsSucceeded (mirrorProject ftpServer demoFs trailingSlash (Run.start demoServer)).trace
      = true ∧
    lookup (mirrorProject ftpServer demoFs trailingSlash (Run.start demoServer)).world.files
      ["wwwindex.html".toList] = some (RNode.file [1, 2]) ∧
    ¬ Mirrors (mirrorProject ftpServer demoFs trailingSlash (Run.start demoServer)).world.files
      (parsePath trailingSlash.RemotePath) (demoFs trailingSlash.LocalPath) ∧
    lookup (mirrorProject ftpServer demoFs siteProject (Run.start demoServer)).world.files
      ["www".toList, "index.html".toList] = some (RNode.file [1, 2]) :=
  ⟨by decide, by decide, by decide,
    fun h => absurd (h ["index.html".toList] (by decide)) (by decide), by decide⟩

/-! ## A local root in clean form -/

theorem cleanStep_plain (rooted : Bool) (out : Str) (dotdot : Nat) (n : Str) (hn : PlainName n) :
    cleanStep rooted (out, dotdot) n =
      ((if (rooted && out.length != 1) || (!rooted && out.length != 0)
          then out ++ [sep] else out) ++ n, dotdot) := by
  simp [cleanStep, hn.1.1, hn.2.1, hn.2.2]

theorem join_plain (path name : Str) (hc : CleanRoot path) (hn : PlainName name) :
    join path name = path ++ sep :: name ∧ CleanRoot (path ++ sep :: name) := by
  have hne : path ≠ [] := by
    intro h
    have := hc.1
    rw [h] at this
    simp [clean] at this
  have hclean : clean (path ++ sep :: name) = path ++ sep :: name := by
    have h1 := hc.1
    unfold clean at h1 ⊢
    rw [if_neg hne] at h1
    rw [if_neg (by simp)]
    have hhead : (path ++ sep :: name).head? = path.head? := by
      cases path with
      | nil => exact absurd rfl hne
      | cons c cs => rfl
    simp only [hhead, splitElems_append_sep, splitElems_of_no_sep name hn.1.2, List.foldl_append,
      List.foldl_cons, List.foldl_nil] at h1 ⊢
    generalize hfold : List.foldl (cleanStep (path.head? == some sep))
      (if (path.head? == some sep) = true then ([sep], 1) else ([], 0)) (splitElems path) = st
      at h1 ⊢
    rcases st with ⟨out, dd⟩
    simp only at h1
    have hout : out = path := by
      by_cases ho : out = []
      · rw [if_pos ho] at h1
        exact absurd h1.symm hc.2.2
      · rw [if_neg ho] at h1
        exact h1
    subst hout
    rw [cleanStep_plain _ _ _ _ hn]
    simp only
    have hcond : ((out.head? == some sep && out.length != 1)
        || (!(out.head? == some sep) && out.length != 0)) = true := by
      cases out with
      | nil => exact absurd rfl hne
      | cons c cs =>
        by_cases hcs : c = sep
        · subst hcs
          cases cs with
          | nil => exact absurd rfl hc.2.1
          | cons d ds => simp
        · simp [hcs]
    rw [if_pos hcond, if_neg (by simp)]
    simp
  refine ⟨?_, hclean, ?_, ?_⟩
  · simp [join, hne, hclean]
  · cases path with
    | nil => exact absurd rfl hne
    | cons c cs => simp
  · cases path with
    | nil => exact absurd rfl hne
    | cons c cs => simp

theorem relString_append (a b : RPath) : relString (a ++ b) = relString a ++ relString b := by
  induction a with
  | nil => rfl
  | cons n ns ih => simp [relString, ih]

theorem relString_concat (rel : RPath) (n : Str) :
    relString (rel ++ [n]) = relString rel ++ sep :: n := by
  simp [relString_append, relString]

theorem relString_ne_nil (rel : RPath) (h : rel ≠ []) : relString rel ≠ [] := by
  cases rel with
  | nil => exact absurd rfl h
  | cons n ns => simp [relString]

theorem parsePath_relString (root : Str) (rel : RPath) (h : ∀ n ∈ rel, ValidName n) :
    parsePath (root ++ relString rel) = parsePath root ++ rel := by
  induction rel using List.reverseRecOn with
  | nil => simp [relString]
  | append_singleton rel n ih =>
    rw [relString_concat, ← List.append_assoc, parsePath_child _ _ (h n (by simp)),
      ih (fun m hm => h m (by simp [hm])), List.append_assoc]

theorem trimPrefix_append (root x : Str) : trimPrefix (root ++ x) root = x := by
  have : root.isPrefixOf (root ++ x) = true :=
    List.isPrefixOf_iff_prefix.2 (List.prefix_append _ _)
  simp [trimPrefix, this]

theorem remotePathOf_rel (p : Project) (rel : RPath) :
    remotePathOf p (p.LocalPath ++ relString rel) = p.RemotePath ++ relString rel := by
  simp [remotePathOf, trimPrefix_append]

theorem rel_path_ne_root (root : Str) (rel : RPath) (h : rel ≠ []) :
    root ++ relString rel ≠ root := by
  intro heq
  have hnil : relString rel = [] := by simpa using heq
  exact relString_ne_nil rel h hnil

theorem writesOf_append (p : Project) (a b : List Visit) :
    writesOf p (a ++ b) = writesOf p b ++ writesOf p a := by
  induction a with
  | nil => simp [writesOf]
  | cons v vs ih => simp [writesOf, ih]

theorem writeOf_entry (p : Project) (rel : RPath) (node : Node) (hrel : rel ≠ [])
    (hv : ∀ n ∈ rel, ValidName n) (hnode : (∃ c, node = Node.file c) ∨ ∃ es, node = Node.dir es) :
    writeOf p ⟨p.LocalPath ++ relString rel, node, none⟩
      = [(parsePath p.RemotePath ++ rel, node.mirrored)] := by
  have hne := rel_path_ne_root p.LocalPath rel hrel
  rcases hnode with ⟨c, rfl⟩ | ⟨es, rfl⟩
  · simp [writeOf, hne, Node.isDir, Node.open, Node.mirrored, remotePathOf_rel,
      parsePath_relString _ _ hv]
  · simp [writeOf, hne, Node.isDir, Node.mirrored, remotePathOf_rel, parsePath_relString _ _ hv]

mutual
theorem writes_walkVisits (p : Project) :
    ∀ (node : Node) (rel : RPath), rel ≠ [] → (∀ n ∈ rel, ValidName n) →
      CleanRoot (p.LocalPath ++ relString rel) → node.Plain →
      writesOf p (walkVisits (p.LocalPath ++ relString rel) node)
        = ((localEntries rel node).map (underRoot (parsePath p.RemotePath))).reverse
          ++ [(parsePath p.RemotePath ++ rel, node.mirrored)]
  | Node.dir entries, rel, hrel, hv, hc, hp => by
    have hp1 : entries.Plain := by simpa [Node.Plain] using hp
    simp only [walkVisits, writesOf, localEntries]
    rw [writes_namesVisits p entries rel hv hc hp1,
      writeOf_entry p rel (Node.dir entries) hrel hv (Or.inr ⟨entries, rfl⟩)]
  | Node.file c, rel, hrel, hv, hc, hp => by
    simp only [walkVisits, writesOf, localEntries, List.map_nil, List.reverse_nil,
      List.nil_append]
    exact writeOf_entry p rel (Node.file c) hrel hv (Or.inl ⟨c, rfl⟩)
  | Node.noOpen e, rel, hrel, hv, hc, hp => by simp [Node.Plain] at hp
  | Node.noRead e, rel, hrel, hv, hc, hp => by simp [Node.Plain] at hp
  | Node.noStat e, rel, hrel, hv, hc, hp => by simp [Node.Plain] at hp
theorem writes_namesVisits (p : Project) :
    ∀ (forest : Forest) (rel : RPath), (∀ n ∈ rel, ValidName n) →
      CleanRoot (p.LocalPath ++ relString rel) → forest.Plain →
      writesOf p (namesVisits (p.LocalPath ++ relString rel) forest)
        = ((forestEntries rel forest).map (underRoot (parsePath p.RemotePath))).reverse
  | Forest.nil, rel, hv, hc, hp => by simp [namesVisits, writesOf, forestEntries]
  | Forest.cons name node rest, rel, hv, hc, hp => by
    simp only [Forest.Plain] at hp
    rcases hp with ⟨hname, _, hnode, hrest⟩
    have hj := join_plain _ name hc hname
    have hpath : p.LocalPath ++ relString rel ++ sep :: name
        = p.LocalPath ++ relString (rel ++ [name]) := by
      rw [relString_concat, List.append_assoc]
    rw [hpath] at hj
    have hv1 : ∀ n ∈ rel ++ [name], ValidName n := by
      intro n hn
      rcases List.mem_append.1 hn with hn | hn
      · exact hv n hn
      · simp only [List.mem_singleton] at hn
        exact hn ▸ hname.1
    have hvis : namesVisits (p.LocalPath ++ relString rel) (Forest.cons name node rest)
        = walkVisits (p.LocalPath ++ relString (rel ++ [name])) node
          ++ namesVisits (p.LocalPath ++ relString rel) rest := by
      cases node with
      | noStat e => simp [Node.Plain] at hnode
      | dir es => simp [namesVisits, hj.1]
      | noRead e => simp [namesVisits, hj.1]
      | file c => simp [namesVisits, hj.1]
      | noOpen e => simp [namesVisits, hj.1]
    rw [hvis, writesOf_append, writes_namesVisits p rest rel hv hc hrest,
      writes_walkVisits p node (rel ++ [name]) (by simp) hv1 hj.2 hnode]
    simp [forestEntries, underRoot]
end

theorem lookup_map_underRoot (r : RPath) (E : List (RPath × RNode)) (rel : RPath) :
    lookup (E.map (underRoot r)) (r ++ rel) = lookup E rel := by
  induction E with
  | nil => rfl
  | cons b E ih =>
    rcases b with ⟨k, v⟩
    simp only [List.map_cons, underRoot, lookup_cons, List.append_cancel_left_eq, ih]

theorem lookup_of_mem_nodup (l : List (RPath × RNode)) (hnd : (l.map Prod.fst).Nodup)
    (q : RPath) (v : RNode) (h : (q, v) ∈ l) : lookup l q = some v := by
  induction l with
  | nil => simp at h
  | cons b l ih =>
    rcases b with ⟨k, w⟩
    simp only [List.map_cons, List.nodup_cons, List.mem_map, not_exists, not_and] at hnd
    simp only [List.mem_cons, Prod.mk.injEq] at h
    simp only [lookup_cons]
    by_cases hk : k = q
    · rw [if_pos hk]
      rcases h with h | h
      · rw [h.2]
      · exact absurd hk.symm (hnd.1 (q, v) h)
    · rw [if_neg hk]
      rcases h with h | h
      · exact absurd h.1.symm hk
      · exact ih hnd.2 h

theorem lookup_reverse (l : List (RPath × RNode)) (hnd : (l.map Prod.fst).Nodup) (q : RPath) :
    lookup l.reverse q = lookup l q := by
  have hnd' : (l.reverse.map Prod.fst).Nodup := by
    rw [List.map_reverse]
    exact List.nodup_reverse.2 hnd
  rcases h : lookup l q with _ | v
  · rcases h' : lookup l.reverse q with _ | w
    · rfl
    · have hm := mem_of_lookup _ _ _ h'
      have := lookup_of_mem_nodup l hnd q w (List.mem_reverse.1 hm)
      rw [h] at this
      simp at this
  · have hm := mem_of_lookup _ _ _ h
    exact lookup_of_mem_nodup _ hnd' q v (List.mem_reverse.2 hm)

theorem prefix_eq_of_length (a b k : RPath) (ha : a <+: k) (hb : b <+: k)
    (hl : a.length = b.length) : a = b :=
  (List.prefix_of_prefix_length_le ha hb (le_of_eq hl)).eq_of_length hl

theorem concat_prefix_concat (rel : RPath) (n m : Str) (h : rel ++ [n] <+: rel ++ [m]) :
    n = m := by
  have := h.eq_of_length (by simp)
  simpa using this

mutual
theorem keys_localEntries :
    ∀ (node : Node) (rel : RPath), node.Plain →
      ((localEntries rel node).map Prod.fst).Nodup ∧
      ∀ k ∈ (localEntries rel node).map Prod.fst, Below rel k
  | Node.dir entries, rel, hp => by
    have hp1 : entries.Plain := by simpa [Node.Plain] using hp
    have h := keys_forestEntries entries rel hp1
    simp only [localEntries]
    refine ⟨h.1, fun k hk => ?_⟩
    rcases h.2 k hk with ⟨n, _, hn⟩
    rcases hn with ⟨t, rfl⟩
    exact (below_iff rel _).2 ⟨n, t, by simp⟩
  | Node.file c, rel, hp => by simp [localEntries]
  | Node.noOpen e, rel, hp => by simp [localEntries]
  | Node.noRead e, rel, hp => by simp [localEntries]
  | Node.noStat e, rel, hp => by simp [localEntries]
theorem keys_forestEntries :
    ∀ (forest : Forest) (rel : RPath), forest.Plain →
      ((forestEntries rel forest).map Prod.fst).Nodup ∧
      ∀ k ∈ (forestEntries rel forest).map Prod.fst, ∃ n ∈ forest.names, rel ++ [n] <+: k
  | Forest.nil, rel, hp => by simp [forestEntries]
  | Forest.cons name node rest, rel, hp => by
    simp only [Forest.Plain] at hp
    rcases hp with ⟨_, hfresh, hnode, hrest⟩
    have h1 := keys_localEntries node (rel ++ [name]) hnode
    have h2 := keys_forestEntries rest rel hrest
    simp only [forestEntries, List.map_cons, List.map_append, Forest.names]
    constructor
    · rw [List.nodup_cons, List.nodup_append]
      refine ⟨?_, h1.1, h2.1, ?_⟩
      · intro hmem
        rcases List.mem_append.1 hmem with hm | hm
        · exact (h1.2 _ hm).2 rfl
        · rcases h2.2 _ hm with ⟨n, hn, hpre⟩
          exact hfresh (concat_prefix_concat rel n name hpre ▸ hn)
      · intro k hk1 hk2
        rcases h2.2 k hk2 with ⟨n, hn, hpre⟩
        have := prefix_eq_of_length _ _ k (h1.2 k hk1).1 hpre (by simp)
        have hnm : name = n := by simpa using this
        exact hfresh (hnm ▸ hn)
    · intro k hk
      simp only [List.mem_cons, List.mem_append] at hk
      rcases hk with rfl | hk | hk
      · exact ⟨name, by simp, List.prefix_refl _⟩
      · exact ⟨name, by simp, (h1.2 k hk).1⟩
      · rcases h2.2 k hk with ⟨n, hn, hpre⟩
        exact ⟨n, by simp [hn], hpre⟩
end

theorem writes_rootVisits (p : Project) (tree : Node) (hc : CleanRoot p.LocalPath)
    (hp : tree.Plain) :
    writesOf p (rootVisits p.LocalPath tree)
      = ((localEntries [] tree).map (underRoot (parsePath p.RemotePath))).reverse := by
  have hroot : p.LocalPath ++ relString [] = p.LocalPath := by simp [relString]
  cases tree with
  | dir entries =>
    have hp1 : entries.Plain := by simpa [Node.Plain] using hp
    have h := writes_namesVisits p entries [] (by simp) (by rw [hroot]; exact hc) hp1
    rw [hroot] at h
    simp [rootVisits, walkVisits, writesOf, writeOf, localEntries, h]
  | file c => simp [rootVisits, walkVisits, writesOf, writeOf, localEntries]
  | noOpen e => simp [Node.Plain] at hp
  | noRead e => simp [Node.Plain] at hp
  | noStat e => simp [Node.Plain] at hp

/-- Structural fidelity for a local root in clean form.  On the server model,
from a well-formed remote state: when the local root is written in clean form
(and is neither `/` nor `.`), the local tree can be read throughout and has
plain, distinct names, and the steps of the project succeed, the remote root
afterwards mirrors the local tree. -/
theorem mirror_fidelity_of_clean_root (s : Server) (fs : Str → Node) (p : Project)
    (hWF : WellFormed s.files) (hc : CleanRoot p.LocalPath) (hp : (fs p.LocalPath).Plain)
    (hs : stepsSucceeded (mirrorProject ftpServer fs p (Run.start s)).trace = true) :
    Mirrors (mirrorProject ftpServer fs p (Run.start s)).world.files (parsePath p.RemotePath)
      (fs p.LocalPath) := by
  intro rel hrel
  rw [(model_mirror s fs p hWF hs).2.2, writes_rootVisits p _ hc hp]
  have hnd : (((localEntries [] (fs p.LocalPath)).map
      (underRoot (parsePath p.RemotePath))).map Prod.fst).Nodup := by
    rw [List.map_map]
    have : (Prod.fst ∘ underRoot (parsePath p.RemotePath))
        = (fun k => parsePath p.RemotePath ++ k) ∘ Prod.fst := by
      funext b; rfl
    rw [this, ← List.map_map]
    exact (keys_localEntries (fs p.LocalPath) [] hp).1.map
      (fun a b h => List.append_cancel_left h)
  simp only [lookup_append, lookup_reverse _ hnd, lookup_map_underRoot, wipedServer]
  rcases hl : lookup (localEntries [] (fs p.LocalPath)) rel with _ | v
  · simp only
    rw [wiped_lookup s.files _ hWF, if_pos]
    refine ⟨List.prefix_append _ _, ?_⟩
    intro h
    exact hrel (by simpa using h)
  · rfl

theorem runVisits_ops_initial (W : Client σ) (p : Project) (vs : List Visit) (w : σ) :
    remoteOps (runVisits (walkFn W p) vs (Run.start w)).2.trace <+: opsOf p vs := by
  induction vs generalizing w with
  | nil => simp [runVisits, remoteOps, opsOf]
  | cons v vs ih =>
    have h1 := walkFn_ops_eq W p v w
    simp only [runVisits, opsOf]
    rcases h : walkFn W p v.path v.info v.err (Run.start w) with ⟨_ | e, st1⟩
    · rw [h] at h1
      simp only at h1 ⊢
      rw [runVisits_framed _ (walkFn_framed W p) vs st1]
      simp only [Run.after_trace, remoteOps_append, h1]
      exact (List.prefix_append_right_inj _).2 (ih st1.world)
    · rw [h] at h1
      simp only at h1 ⊢
      rw [h1]
      exact List.prefix_append _ _

theorem opsOf_append (p : Project) (a b : List Visit) :
    opsOf p (a ++ b) = opsOf p a ++ opsOf p b := by
  induction a with
  | nil => rfl
  | cons v vs ih => simp [opsOf, ih]

theorem opOf_entry (p : Project) (rel : RPath) (node : Node) (hrel : rel ≠ [])
    (hnode : (∃ c, node = Node.file c) ∨ ∃ es, node = Node.dir es) :
    opOf p ⟨p.LocalPath ++ relString rel, node, none⟩ = [entryOp p (rel, node.mirrored)] := by
  have hne := rel_path_ne_root p.LocalPath rel hrel
  rcases hnode with ⟨c, rfl⟩ | ⟨es, rfl⟩
  · simp [opOf, hne, Node.isDir, Node.open, Node.mirrored, remotePathOf_rel, entryOp]
  · simp [opOf, hne, Node.isDir, Node.mirrored, remotePathOf_rel, entryOp]

mutual
theorem ops_walkVisits (p : Project) :
    ∀ (node : Node) (rel : RPath), rel ≠ [] →
      CleanRoot (p.LocalPath ++ relString rel) → node.Plain →
      opsOf p (walkVisits (p.LocalPath ++ relString rel) node)
        = entryOp p (rel, node.mirrored) :: (localEntries rel node).map (entryOp p)
  | Node.dir entries, rel, hrel, hc, hp => by
    have hp1 : entries.Plain := by simpa [Node.Plain] using hp
    simp only [walkVisits, opsOf, localEntries]
    rw [ops_namesVisits p entries rel hc hp1,
      opOf_entry p rel (Node.dir entries) hrel (Or.inr ⟨entries, rfl⟩)]
    rfl
  | Node.file c, rel, hrel, hc, hp => by
    simp only [walkVisits, opsOf, localEntries, List.map_nil, List.append_nil]
    exact opOf_entry p rel (Node.file c) hrel (Or.inl ⟨c, rfl⟩)
  | Node.noOpen e, rel, hrel, hc, hp => by simp [Node.Plain] at hp
  | Node.noRead e, rel, hrel, hc, hp => by simp [Node.Plain] at hp
  | Node.noStat e, rel, hrel, hc, hp => by simp [Node.Plain] at hp
theorem ops_namesVisits (p : Project) :
    ∀ (forest : Forest) (rel : RPath),
      CleanRoot (p.LocalPath ++ relString rel) → forest.Plain →
      opsOf p (namesVisits (p.LocalPath ++ relString rel) forest)
        = (forestEntries rel forest).map (entryOp p)
  | Forest.nil, rel, hc, hp => by simp [namesVisits, opsOf, forestEntries]
  | Forest.cons name node rest, rel, hc, hp => by
    simp only [Forest.Plain] at hp
    rcases hp with ⟨hname, _, hnode, hrest⟩
    have hj := join_plain _ name hc hname
    have hpath : p.LocalPath ++ relString rel ++ sep :: name
        = p.LocalPath ++ relString (rel ++ [name]) := by
      rw [relString_concat, List.append_assoc]
    rw [hpath] at hj
    have hvis : namesVisits (p.LocalPath ++ relString rel) (Forest.cons name node rest)
        = walkVisits (p.LocalPath ++ relString (rel ++ [name])) node
          ++ namesVisits (p.LocalPath ++ relString rel) rest := by
      cases node with
      | noStat e => simp [Node.Plain] at hnode
      | dir es => simp [namesVisits, hj.1]
      | noRead e => simp [namesVisits, hj.1]
      | file c => simp [namesVisits, hj.1]
      | noOpen e => simp [namesVisits, hj.1]
    rw [hvis, opsOf_append, ops_namesVisits p rest rel hc hrest,
      ops_walkVisits p node (rel ++ [name]) (by simp) hj.2 hnode]
    simp [forestEntries]
end

theorem ops_rootVisits (p : Project) (tree : Node) (hc : CleanRoot p.LocalPath)
    (hp : tree.Plain) :
    opsOf p (rootVisits p.LocalPath tree) = (localEntries [] tree).map (entryOp p) := by
  have hroot : p.LocalPath ++ relString [] = p.LocalPath := by simp [relString]
  cases tree with
  | dir entries =>
    have hp1 : entries.Plain := by simpa [Node.Plain] using hp
    have h := ops_namesVisits p entries [] (by rw [hroot]; exact hc) hp1
    rw [hroot] at h
    simp [rootVisits, walkVisits, opsOf, opOf, localEntries, h]
  | file c => simp [rootVisits, walkVisits, opsOf, opOf, localEntries]
  | noOpen e => simp [Node.Plain] at hp
  | noRead e => simp [Node.Plain] at hp
  | noStat e => simp [Node.Plain] at hp

theorem dropWhile_until_sep (l t : Str) (h : sep ∉ l) :
    (l ++ sep :: t).dropWhile (fun c => c ≠ sep) = sep :: t := by
  induction l with
  | nil => simp [List.dropWhile]
  | cons c cs ih =>
    simp only [List.mem_cons, not_or] at h
    have hc : c ≠ sep := fun hh => h.1 hh.symm
    have hstep : List.dropWhile (fun c => decide (c ≠ sep)) (c :: (cs ++ sep :: t))
        = List.dropWhile (fun c => decide (c ≠ sep)) (cs ++ sep :: t) := by
      rw [List.dropWhile_cons]
      simp [hc]
    exact hstep.trans (ih h.2)

theorem parentPath_child (a n : Str) (h : sep ∉ n) : parentPath (a ++ sep :: n) = a := by
  have hr : sep ∉ n.reverse := by simpa using h
  simp only [parentPath, List.reverse_append, List.reverse_cons, List.append_assoc,
    List.singleton_append]
  rw [dropWhile_until_sep _ _ hr]
  simp

theorem parentBeforeChild_append (R : Str) (a b : List Op) (made : List Str) :
    parentBeforeChild R (a ++ b) made
      = (parentBeforeChild R a made && parentBeforeChild R b (madeAfter a made)) := by
  induction a generalizing made with
  | nil => simp [parentBeforeChild, madeAfter]
  | cons o a ih =>
    cases o <;> simp [parentBeforeChild, madeAfter, ih, Bool.and_assoc]

theorem mem_madeAfter (ops : List Op) (made : List Str) (x : Str) (h : x ∈ made) :
    x ∈ madeAfter ops made := by
  induction ops generalizing made with
  | nil => exact h
  | cons o ops ih =>
    cases o <;> simp only [madeAfter] <;> apply ih
    all_goals first | exact h | exact List.mem_cons_of_mem _ h

theorem parent_of_entry (p : Project) (rel : RPath) (name : Str) (hn : ValidName name) :
    parentPath (p.RemotePath ++ relString (rel ++ [name])) = p.RemotePath ++ relString rel := by
  rw [relString_concat, ← List.append_assoc, parentPath_child _ _ hn.2]

mutual
theorem parentBeforeChild_node (p : Project) :
    ∀ (node : Node) (rel : RPath) (name : Str) (made : List Str), PlainName name →
      node.Plain → (rel = [] ∨ p.RemotePath ++ relString rel ∈ made) →
      parentBeforeChild p.RemotePath
        (entryOp p (rel ++ [name], node.mirrored)
          :: (localEntries (rel ++ [name]) node).map (entryOp p)) made = true
  | Node.dir entries, rel, name, made, hn, hp, hmade => by
    have hp1 : entries.Plain := by simpa [Node.Plain] using hp
    have hpar := parent_of_entry p rel name hn.1
    simp only [entryOp, Node.mirrored, parentBeforeChild, localEntries, hpar, Bool.and_eq_true,
      Bool.or_eq_true, decide_eq_true_eq]
    constructor
    · rcases hmade with rfl | hm
      · left; simp [relString]
      · right; exact hm
    · exact parentBeforeChild_forest p entries (rel ++ [name]) _ hp1 (Or.inr (by simp))
  | Node.file c, rel, name, made, hn, hp, hmade => by
    have hpar := parent_of_entry p rel name hn.1
    simp only [entryOp, Node.mirrored, parentBeforeChild, localEntries, hpar, List.map_nil,
      Bool.and_true, Bool.or_eq_true, decide_eq_true_eq]
    rcases hmade with rfl | hm
    · left; simp [relString]
    · right; exact hm
  | Node.noOpen e, rel, name, made, hn, hp, hmade => by simp [Node.Plain] at hp
  | Node.noRead e, rel, name, made, hn, hp, hmade => by simp [Node.Plain] at hp
  | Node.noStat e, rel, name, made, hn, hp, hmade => by simp [Node.Plain] at hp
theorem parentBeforeChild_forest (p : Project) :
    ∀ (forest : Forest) (rel : RPath) (made : List Str), forest.Plain →
      (rel = [] ∨ p.RemotePath ++ relString rel ∈ made) →
      parentBeforeChild p.RemotePath ((forestEntries rel forest).map (entryOp p)) made = true
  | Forest.nil, rel, made, hp, hmade => by simp [forestEntries, parentBeforeChild]
  | Forest.cons name node rest, rel, made, hp, hmade => by
    simp only [Forest.Plain] at hp
    rcases hp with ⟨hname, _, hnode, hrest⟩
    have hsplit : (forestEntries rel (Forest.cons name node rest)).map (entryOp p)
        = (entryOp p (rel ++ [name], node.mirrored)
            :: (localEntries (rel ++ [name]) node).map (entryOp p))
          ++ (forestEntries rel rest).map (entryOp p) := by
      simp [forestEntries]
    rw [hsplit, parentBeforeChild_append, Bool.and_eq_true]
    refine ⟨parentBeforeChild_node p node rel name made hname hnode hmade,
      parentBeforeChild_forest p rest rel _ hrest ?_⟩
    exact hmade.imp id (mem_madeAfter _ _ _)
end

/-- Remote destination and parent before child, for a local root in clean form.
When the local root is written in clean form (and is neither `/` nor `.`) and
the local tree can be read throughout and has plain, distinct names, then
whatever the client answers: the create-directory and store operations of the
upload phase are, in order, those of the entries of the tree, each on the
remote root followed by a separator and the names of the entry's relative path
(up to the first failure); and the sequence is parent before child. -/
theorem upload_of_clean_root (W : Client σ) (fs : Str → Node) (p : Project) (w : σ)
    (hc : CleanRoot p.LocalPath) (hp : (fs p.LocalPath).Plain) :
    (∃ issued : List Op, issued <+: (localEntries [] (fs p.LocalPath)).map (entryOp p) ∧
      remoteOps (upload W fs p (Run.start w)).trace = issued ++ [Op.quit]) ∧
    parentBeforeChild p.RemotePath (remoteOps (upload W fs p (Run.start w)).trace) [] = true := by
  have hpre := runVisits_ops_initial W p (rootVisits p.LocalPath (fs p.LocalPath)) w
  rw [ops_rootVisits p _ hc hp] at hpre
  have hplan : parentBeforeChild p.RemotePath
      ((localEntries [] (fs p.LocalPath)).map (entryOp p)) [] = true := by
    cases hfs : fs p.LocalPath with
    | dir entries =>
      rw [hfs] at hp
      have hp1 : entries.Plain := by simpa [Node.Plain] using hp
      simpa [localEntries] using parentBeforeChild_forest p entries [] [] hp1 (Or.inl rfl)
    | file c => simp [localEntries, parentBeforeChild]
    | noOpen e => simp [localEntries, parentBeforeChild]
    | noRead e => simp [localEntries, parentBeforeChild]
    | noStat e => simp [localEntries, parentBeforeChild]
  refine ⟨⟨_, hpre, upload_ops W fs p w⟩, ?_⟩
  rw [upload_ops, parentBeforeChild_append, Bool.and_eq_true]
  constructor
  · rcases hpre with ⟨t, ht⟩
    rw [← ht, parentBeforeChild_append, Bool.and_eq_true] at hplan
    exact hplan.1
  · simp [parentBeforeChild]

theorem demoTree_plain : demoTree.Plain := by
  simp [demoTree, Node.Plain, Forest.Plain, Forest.names, PlainName, ValidName, sep]

theorem mirror_fidelity_of_clean_root_instance :
    (WellFormed demoServer.files ∧ CleanRoot siteProject.LocalPath ∧
      stepsSucceeded (mirrorProject ftpServer demoFs siteProject (Run.start demoServer)).trace
        = true) ∧
    Mirrors (mirrorProject ftpServer demoFs siteProject (Run.start demoServer)).world.files
      (parsePath siteProject.RemotePath) (demoFs siteProject.LocalPath) :=
  ⟨⟨by decide, by decide, by decide⟩,
    mirror_fidelity_of_clean_root demoServer demoFs siteProject (by decide) (by decide)
      demoTree_plain (by decide)⟩

theorem upload_of_clean_root_instance :
    parentBeforeChild siteProject.RemotePath
      (remoteOps (upload lockedCss demoFs siteProject (Run.start demoServerWiped)).trace) []
      = true :=
  (upload_of_clean_root lockedCss demoFs siteProject demoServerWiped (by decide)
    demoTree_plain).2

end Uploader
